import Mathlib

/-!
# gnotify: the inotify watcher (`watcher_linux.go`, `event.go`)

A shallow embedding of the watcher of `lightmen/gnotify`:

* `Op`, `Event` (`event.go`) and the table `Mask2Op`, `GetOp`, `GetMask`;
* the watch table of `Watcher` (`watchs`, `paths`, the mutex `mu`) with `Add`
  and `handleInotifyEvent`;
* the decode pass `handleEpollEvent` over one read of the inotify descriptor and
  the loop `waitEvents`.

Conventions of the embedding.

* `uint32` values (`Op`, kernel masks, `offset`) are `Nat`; the only arithmetic
  that can leave the 32-bit range is the offset update of `handleEpollEvent`,
  which is reduced modulo `2 ^ 32` explicitly. `int` descriptors and watch
  handles are `Int`.
* A Go map is a function into `Option`. `Mask2Op` is a Go map that the code
  walks with `range`; the order of such a walk is not fixed by the language, so
  every walk takes the order it uses as an argument (`IterOrder`, any
  permutation of the four entries).
* System calls are arguments: the result of `unix.InotifyAddWatch`, of
  `unix.Read` and of `poller.Wait` is given to the function that would issue
  the call. The calls that were issued are recorded in the outcome.
* `sync.Mutex` is the boolean `mu`. The model is sequential: `Lock` on a held
  mutex never returns (`Exit.deadlock`), because no other task is there to
  release it. Sends on `w.Event` and `w.Err` are taken by the consumer at once
  and are recorded in order.
-/

namespace Gnotify

/-! ## Constants of `golang.org/x/sys/unix` (Linux) -/

def IN_MODIFY : Nat := 0x2
def IN_CREATE : Nat := 0x100
def IN_DELETE_SELF : Nat := 0x400
def IN_MOVE_SELF : Nat := 0x800
def IN_IGNORED : Nat := 0x8000
def SizeofInotifyEvent : Nat := 0x10
def EINTR : Nat := 0x4
def EAGAIN : Nat := 0xb

/-! ## `event.go` -/

/-- Op `Create = 1 << iota`. -/
def Create : Nat := 1
/-- Op `Modify`. -/
def Modify : Nat := 2
/-- Op `Delete`. -/
def Delete : Nat := 4
/-- Op `AllOp = Create | Modify | Delete`. -/
def AllOp : Nat := Create ||| Modify ||| Delete

/-- The notify event of `event.go`. -/
structure Event where
  Name : String
  Op : Nat
deriving DecidableEq, Repr

/-! ## Errors -/

/-- The error values the watcher handles: a `unix.Errno`, `io.EOF`, or a value
made by `errors.New`. -/
inductive GoError where
  | errno (code : Nat)
  | EOF
  | text (msg : String)
deriving DecidableEq, Repr

/-! ## `Mask2Op`, `GetOp`, `GetMask` -/

/-- The entries of the map `Mask2Op`, in the order the source lists them. -/
def Mask2Op : List (Nat × Nat) :=
  [(IN_CREATE, Create), (IN_DELETE_SELF, Delete), (IN_MOVE_SELF, Delete), (IN_MODIFY, Modify)]

/-- One iteration order of `range Mask2Op`: every entry exactly once. -/
structure IterOrder where
  entries : List (Nat × Nat)
  perm : entries.Perm Mask2Op

/-- The body of the `range` loop of `GetOp`: skip entries whose key shares no
bit with `mask`, stop at the first one that does. -/
def GetOp.scan (mask : Nat) : List (Nat × Nat) → Nat × Bool
  | [] => (0, false)
  | (k, v) :: rest => if mask &&& k = 0 then GetOp.scan mask rest else (v, true)

/-- The method `GetOp(mask) (op, ok)`, walking `Mask2Op` in the order `o`. -/
def GetOp (o : IterOrder) (mask : Nat) : Nat × Bool :=
  GetOp.scan mask o.entries

/-- The method `GetMask(op) mask`, walking `Mask2Op` in the order `o`. -/
def GetMask (o : IterOrder) (op : Nat) : Nat :=
  o.entries.foldl (fun mask kv => if op &&& kv.2 = 0 then mask else mask ||| kv.1) 0

/-! ## `path.Clean` (Go standard library)

`Add` calls `path.Clean`. The function is transcribed from the Go standard
library over the characters of the path; the Go code works on bytes and only
compares them with the ASCII bytes of `/` and `.`, which do not occur inside a
multi-byte UTF-8 sequence, so both readings agree. -/

/-- The backtracking of a `..` element: `out.w--`, then
`for out.w > dotdot && out.index(out.w) != '/' { out.w-- }`; the argument is the
value of `out.w` after the first decrement, the result the final `out.w`. -/
def pathClean.backtrack (out : List Char) (dotdot : Nat) : Nat → Nat
  | 0 => 0
  | w + 1 => if dotdot < w + 1 ∧ out.getD (w + 1) '/' ≠ '/' then pathClean.backtrack out dotdot w
    else w + 1

/-- The main loop `for r < n` of `path.Clean`; `rest` is `path[r:]`, `out` the
written part of the buffer. Every round consumes at least one character. -/
def pathClean.loop (rooted : Bool) : Nat → List Char → List Char → Nat → List Char
  | 0, _, out, _ => out
  | _ + 1, [], out, _ => out
  | fuel + 1, c :: rest, out, dotdot =>
    if c = '/' then
      pathClean.loop rooted fuel rest out dotdot
    else if c = '.' ∧ (rest = [] ∨ rest.head? = some '/') then
      pathClean.loop rooted fuel rest out dotdot
    else if c = '.' ∧ rest.head? = some '.' ∧ (rest.tail = [] ∨ rest.tail.head? = some '/') then
      if dotdot < out.length then
        pathClean.loop rooted fuel rest.tail
          (out.take (pathClean.backtrack out dotdot (out.length - 1))) dotdot
      else if rooted = false then
        let out2 := (if 0 < out.length then out ++ ['/'] else out) ++ ['.', '.']
        pathClean.loop rooted fuel rest.tail out2 out2.length
      else
        pathClean.loop rooted fuel rest.tail out dotdot
    else
      let out1 :=
        if (rooted = true ∧ out.length ≠ 1) ∨ (rooted = false ∧ out.length ≠ 0) then out ++ ['/']
        else out
      pathClean.loop rooted fuel ((c :: rest).dropWhile (fun x => x ≠ '/'))
        (out1 ++ (c :: rest).takeWhile (fun x => x ≠ '/')) dotdot

/-- Go `path.Clean`. -/
def pathClean (path : String) : String :=
  match path.data with
  | [] => "."
  | c :: rest =>
    let rooted : Bool := c = '/'
    let out :=
      if rooted then pathClean.loop rooted (rest.length + 1) rest ['/'] 1
      else pathClean.loop rooted (rest.length + 2) (c :: rest) [] 0
    if out = [] then "." else String.mk out

/-! ## The watcher state -/

/-- The struct `Watch`. -/
structure Watch where
  fd : Int
  Mask : Nat
deriving DecidableEq, Repr

/-- The fields of `Watcher` the claims are about: the inotify descriptor `fd`,
the wake descriptor of the poller (`poller.wfd`), the mutex `mu` (true when
held) and the two maps. -/
structure Watcher where
  fd : Int
  wfd : Int
  mu : Bool
  watchs : String → Option Watch
  paths : Int → Option String

/-- The watcher built by `NewWatcher` from the descriptors its system calls
returned: both maps empty, the mutex free. -/
def NewWatcher (fd wfd : Int) : Watcher :=
  { fd := fd, wfd := wfd, mu := false, watchs := fun _ => none, paths := fun _ => none }

/-- How a call ends: it returns (with its `err`), it blocks for ever in
`w.mu.Lock()`, or it panics on a nil `*Watch`. -/
inductive Exit where
  | returned (err : Option GoError)
  | deadlock
  | nilDeref
deriving DecidableEq, Repr

/-- The outcome of `Add`: the watcher afterwards, the `unix.InotifyAddWatch`
calls issued (path and mask), and how the call ended. -/
structure AddOutcome where
  w : Watcher
  calls : List (String × Nat)
  exit : Exit

/-- The method `Add(fileName, op)`. `reg` is what `unix.InotifyAddWatch` returns
if it is called. -/
def Add (o : IterOrder) (reg : Except GoError Int) (w : Watcher) (fileName : String) (op : Nat) :
    AddOutcome :=
  let op := if op = 0 then AllOp else op
  let fileName := pathClean fileName
  let mask := GetMask o op
  if w.mu then ⟨w, [], .deadlock⟩
  else
    match w.watchs fileName with
    | some watch =>
      ⟨{ w with watchs := Function.update w.watchs fileName (some { watch with Mask := mask }) },
        [], .returned none⟩
    | none =>
      match reg with
      | .error e => ⟨w, [(fileName, mask)], .returned (some e)⟩
      | .ok wfd =>
        ⟨{ w with
            watchs := Function.update w.watchs fileName (some { fd := wfd, Mask := mask })
            paths := Function.update w.paths wfd (some fileName) },
          [(fileName, mask)], .returned none⟩

/-- The struct `unix.InotifyEvent`. -/
structure InotifyEvent where
  Wd : Int
  Mask : Nat
  Cookie : Nat
  Len : Nat
deriving DecidableEq, Repr

/-- The outcome of decoding one record: the watcher afterwards, the events sent
on `w.Event`, and how the call ended. -/
structure Outcome where
  w : Watcher
  sent : List Event
  exit : Exit

/-- The method `handleInotifyEvent(ievent)`. When `GetOp` finds no entry the
source returns without `w.mu.Unlock()`, so the mutex stays held. -/
def handleInotifyEvent (o : IterOrder) (w : Watcher) (ievent : InotifyEvent) : Outcome :=
  let wfd := ievent.Wd
  let mask := ievent.Mask
  if w.mu then ⟨w, [], .deadlock⟩
  else
    match w.paths wfd with
    | none => ⟨w, [], .returned none⟩
    | some fileName =>
      match GetOp o mask with
      | (_, false) => ⟨{ w with mu := true }, [], .returned none⟩
      | (op, true) =>
        let watch := w.watchs fileName
        let w1 :=
          if op &&& Delete ≠ 0 then
            { w with
              watchs := Function.update w.watchs fileName none
              paths := Function.update w.paths wfd none }
          else w
        match watch with
        | none => ⟨w1, [], .nilDeref⟩
        | some watch =>
          if watch.Mask &&& mask = 0 then ⟨w1, [], .returned none⟩
          else ⟨w1, [{ Name := fileName, Op := op }], .returned none⟩


/-! ## One read of the inotify descriptor: `handleEpollEvent` -/

/-- The struct `unix.EpollEvent`. -/
structure EpollEvent where
  Events : Nat
  Fd : Int
  Pad : Int
deriving DecidableEq, Repr

/-- The Go conversion `int32(x)`. -/
def toInt32 (x : Int) : Int :=
  (x + 2 ^ 31) % 2 ^ 32 - 2 ^ 31

/-- The byte `buf[i]`. -/
def byteAt (buf : List Nat) (i : Nat) : Nat :=
  buf.getD i 0 % 256

/-- The 32-bit little-endian word at `buf[off : off+4]` (Linux on amd64 and
arm64 is little-endian). -/
def le32 (buf : List Nat) (off : Nat) : Nat :=
  byteAt buf off + 256 * byteAt buf (off + 1) + 65536 * byteAt buf (off + 2) +
    16777216 * byteAt buf (off + 3)

/-- The header `(*unix.InotifyEvent)(unsafe.Pointer(&buf[offset]))`. -/
def headerAt (buf : List Nat) (offset : Nat) : InotifyEvent :=
  { Wd := toInt32 (le32 buf offset)
    Mask := le32 buf (offset + 4)
    Cookie := le32 buf (offset + 8)
    Len := le32 buf (offset + 12) }

/-- The outcome of `handleEpollEvent`: the watcher afterwards, the events sent
on `w.Event`, the offsets of the headers handed to `handleInotifyEvent` (in
order), the number of `unix.Read` calls issued, and how the call ended. -/
structure ReadOutcome where
  w : Watcher
  sent : List Event
  visited : List Nat
  reads : Nat
  exit : Exit

/-- The loop `for offset <= uint32(n-unix.SizeofInotifyEvent)` of
`handleEpollEvent`. `ord i` is the iteration order `GetOp` uses for the `i`-th
header of this pass. The loop need not terminate (a header may carry a `Len`
that wraps the offset back), so it runs on fuel: `none` is fuel exhausted. -/
def handleEpollEvent.loop (ord : Nat → IterOrder) (buf : List Nat) (n : Nat) :
    Nat → Watcher → Nat → List Event → List Nat → Option ReadOutcome
  | 0, _, _, _, _ => none
  | fuel + 1, w, offset, sent, visited =>
    if offset ≤ (n - SizeofInotifyEvent) % 2 ^ 32 then
      let ievent := headerAt buf offset
      let r := handleInotifyEvent (ord visited.length) w ievent
      match r.exit with
      | .returned none =>
        handleEpollEvent.loop ord buf n fuel r.w
          ((offset + (SizeofInotifyEvent + ievent.Len) % 2 ^ 32) % 2 ^ 32)
          (sent ++ r.sent) (visited ++ [offset])
      | e => some ⟨r.w, sent ++ r.sent, visited ++ [offset], 1, e⟩
    else some ⟨w, sent, visited, 1, .returned none⟩

/-- The method `handleEpollEvent(epEvent)`. `read` is what `unix.Read(w.fd, buf)`
returns if it is called: an error, or the `n` bytes it stored in `buf[:n]`. -/
def handleEpollEvent (ord : Nat → IterOrder) (fuel : Nat) (w : Watcher) (epEvent : EpollEvent)
    (read : Except GoError (List Nat)) : Option ReadOutcome :=
  if w.fd ≠ epEvent.Fd then some ⟨w, [], [], 0, .returned none⟩
  else
    match read with
    | .error err =>
      some ⟨w, [], [], 1, .returned (if err = .errno EINTR then none else some err)⟩
    | .ok buf =>
      let n := buf.length
      if n < SizeofInotifyEvent then
        if n = 0 then some ⟨w, [], [], 1, .returned (some .EOF)⟩
        else some ⟨w, [], [], 1, .returned (some (.text "notify: short read in handleEvent"))⟩
      else handleEpollEvent.loop ord buf n fuel w 0 [] []

/-! ## The loop `waitEvents` -/

/-- How `waitEvents` ends: it leaves the loop (and the deferred `Close` runs), it
is blocked in `poller.Wait` with no readiness left, it is blocked on the mutex,
it panics, or a decode pass does not terminate. -/
inductive LoopExit where
  | closed
  | waiting
  | deadlock
  | nilDeref
  | diverged
deriving DecidableEq, Repr

/-- What the loop has done so far: the watcher, the events sent on `w.Event`,
the errors sent on `w.Err`, the number of `unix.Read` calls. -/
structure LoopState where
  w : Watcher
  sent : List Event
  errs : List GoError
  reads : Nat

/-- The inner loop `for _, event := range events` of `waitEvents`. The result
is the state, `isWakeUp`, and the way the whole method ended if it ended inside
this loop. `reads k` is the result of the `k`-th `unix.Read`. -/
def waitEvents.range (fuel : Nat) (reads : Nat → Except GoError (List Nat))
    (ord : Nat → Nat → IterOrder) :
    List EpollEvent → Bool → LoopState → LoopState × Bool × Option LoopExit
  | [], isWakeUp, s => (s, isWakeUp, none)
  | event :: rest, isWakeUp, s =>
    if event.Fd = toInt32 s.w.wfd then waitEvents.range fuel reads ord rest true s
    else
      match handleEpollEvent (ord s.reads) fuel s.w event (reads s.reads) with
      | none => (s, isWakeUp, some .diverged)
      | some r =>
        let s1 : LoopState := ⟨r.w, s.sent ++ r.sent, s.errs, s.reads + r.reads⟩
        match r.exit with
        | .returned none => waitEvents.range fuel reads ord rest isWakeUp s1
        | .returned (some err) =>
          if err ≠ .errno EINTR then
            ({ s1 with errs := s1.errs ++ [err] }, isWakeUp, some .closed)
          else waitEvents.range fuel reads ord rest isWakeUp s1
        | .deadlock => (s1, isWakeUp, some .deadlock)
        | .nilDeref => (s1, isWakeUp, some .nilDeref)

/-- The method `waitEvents`, run against the results `poller.Wait` returns one
after the other; when they are used up the loop is blocked in `poller.Wait`. -/
def waitEvents (fuel : Nat) (reads : Nat → Except GoError (List Nat))
    (ord : Nat → Nat → IterOrder) :
    List (Except GoError (List EpollEvent)) → LoopState → LoopState × LoopExit
  | [], s => (s, .waiting)
  | .error err :: _, s => ({ s with errs := s.errs ++ [err] }, .closed)
  | .ok events :: later, s =>
    match waitEvents.range fuel reads ord events false s with
    | (s1, _, some e) => (s1, e)
    | (s1, true, none) => (s1, .closed)
    | (s1, false, none) => waitEvents fuel reads ord later s1

/-! ## Sequences of calls on the table -/

/-- One call on the watch table: an `Add` (with the order its `GetMask` walks
and the result of the kernel registration, if issued) or the decode of a record
(with the order its `GetOp` walks). -/
inductive Action where
  | add (o : IterOrder) (reg : Except GoError Int) (fileName : String) (op : Nat)
  | decode (o : IterOrder) (ievent : InotifyEvent)

/-- The watcher after one call. -/
def step (w : Watcher) : Action → Watcher
  | .add o reg fileName op => (Add o reg w fileName op).w
  | .decode o ievent => (handleInotifyEvent o w ievent).w

/-- The watcher after a sequence of calls. -/
def run (w : Watcher) (trace : List Action) : Watcher :=
  trace.foldl step w

/-- A table a watcher can have: one reached from a new watcher by calls. -/
def Reachable (w : Watcher) : Prop :=
  ∃ fd wfd trace, w = run (NewWatcher fd wfd) trace

/-- Every forward entry `p -> watch` has the reverse entry `watch.fd -> p`. -/
def ForwardOK (w : Watcher) : Prop :=
  ∀ p watch, w.watchs p = some watch → w.paths watch.fd = some p

/-- Every reverse entry `h -> p` has a forward entry for `p` with handle `h`. -/
def ReverseOK (w : Watcher) : Prop :=
  ∀ h p, w.paths h = some p → ∃ watch, w.watchs p = some watch ∧ watch.fd = h

/-- The two maps are exact inverses. -/
def Bijective (w : Watcher) : Prop :=
  ForwardOK w ∧ ReverseOK w

/-- The handles of the forward entries are exactly the keys of the reverse map. -/
def SameHandles (w : Watcher) : Prop :=
  ∀ h, (∃ p watch, w.watchs p = some watch ∧ watch.fd = h) ↔ ∃ p, w.paths h = some p

/-- Along the trace, every kernel registration that is issued and succeeds
returns a handle that is not a key of the reverse map at that moment. -/
def FreshHandles : Watcher → List Action → Prop
  | _, [] => True
  | w, .add o (.ok h) fileName op :: rest =>
    (w.mu = false → w.watchs (pathClean fileName) = none → w.paths h = none) ∧
      FreshHandles (step w (.add o (.ok h) fileName op)) rest
  | w, a :: rest => FreshHandles (step w a) rest

/-- The action is an `Add` whose kernel registration would return handle `h`. -/
def Action.registers (h : Int) : Action → Prop
  | .add _ (.ok h') _ _ => h' = h
  | _ => False

/-! ## Iteration orders and inputs used in the examples -/

/-- The order in which the source lists the entries. -/
def declaredOrder : IterOrder := ⟨Mask2Op, List.Perm.refl _⟩

/-- The declared order rotated by one entry. -/
def rotatedOrder : IterOrder :=
  ⟨[(IN_MODIFY, Modify), (IN_CREATE, Create), (IN_DELETE_SELF, Delete), (IN_MOVE_SELF, Delete)],
    by decide⟩

/-- The bytes of a header followed by `Len` zero bytes of name. -/
def encodeRecord (ev : InotifyEvent) : List Nat :=
  let e32 (x : Nat) : List Nat := [x % 256, x / 256 % 256, x / 65536 % 256, x / 16777216 % 256]
  e32 (ev.Wd % 2 ^ 32).toNat ++ e32 ev.Mask ++ e32 ev.Cookie ++ e32 ev.Len ++
    List.replicate ev.Len 0

/-! ## Reference for one decode pass -/

/-- The values of the record fit the fields of the 16-byte header. -/
def InotifyEvent.WF (ev : InotifyEvent) : Prop :=
  -2 ^ 31 ≤ ev.Wd ∧ ev.Wd < 2 ^ 31 ∧ ev.Mask < 2 ^ 32 ∧ ev.Cookie < 2 ^ 32 ∧ ev.Len < 2 ^ 32

/-- The bytes of a read that is the concatenation of the given records. -/
def encodeAll : List InotifyEvent → List Nat
  | [] => []
  | ev :: rest => encodeRecord ev ++ encodeAll rest

/-- The per-record decode results in record order: every record is handed to
`handleInotifyEvent` in turn, starting at `offset` and advancing by
`16 + Len`, until the records are used up or a decode does not return nil. -/
def decodeInOrder (ord : Nat → IterOrder) :
    List InotifyEvent → Watcher → Nat → List Event → List Nat → ReadOutcome
  | [], w, _, sent, visited => ⟨w, sent, visited, 1, .returned none⟩
  | ev :: rest, w, offset, sent, visited =>
    match (handleInotifyEvent (ord visited.length) w ev).exit with
    | .returned none =>
      decodeInOrder ord rest (handleInotifyEvent (ord visited.length) w ev).w
        (offset + (SizeofInotifyEvent + ev.Len))
        (sent ++ (handleInotifyEvent (ord visited.length) w ev).sent) (visited ++ [offset])
    | e =>
      ⟨(handleInotifyEvent (ord visited.length) w ev).w,
        sent ++ (handleInotifyEvent (ord visited.length) w ev).sent, visited ++ [offset], 1, e⟩

/-! # Theorems -/

/-! ## Facts about `GetOp` and `GetMask` -/

theorem scan_false_iff (mask : Nat) (l : List (Nat × Nat)) :
    (GetOp.scan mask l).2 = false ↔ ∀ kv ∈ l, mask &&& kv.1 = 0 := by
  induction l with
  | nil => simp [GetOp.scan]
  | cons kv rest ih =>
    obtain ⟨k, v⟩ := kv
    by_cases h : mask &&& k = 0
    · simp [GetOp.scan, h, ih]
    · simp [GetOp.scan, h]

theorem scan_false_fst (mask : Nat) (l : List (Nat × Nat))
    (h : (GetOp.scan mask l).2 = false) : (GetOp.scan mask l).1 = 0 := by
  induction l with
  | nil => simp [GetOp.scan]
  | cons kv rest ih =>
    obtain ⟨k, v⟩ := kv
    by_cases hk : mask &&& k = 0
    · simp only [GetOp.scan, hk, if_true] at h ⊢
      exact ih h
    · simp [GetOp.scan, hk] at h

theorem scan_first (mask : Nat) (l : List (Nat × Nat))
    (h : (GetOp.scan mask l).2 = true) :
    ∃ pre kv post, l = pre ++ kv :: post ∧ (∀ x ∈ pre, mask &&& x.1 = 0) ∧
      mask &&& kv.1 ≠ 0 ∧ GetOp.scan mask l = (kv.2, true) := by
  induction l with
  | nil => simp [GetOp.scan] at h
  | cons kv rest ih =>
    obtain ⟨k, v⟩ := kv
    by_cases hk : mask &&& k = 0
    · simp only [GetOp.scan, hk, if_true] at h ⊢
      obtain ⟨pre, kv, post, e, hpre, hkv, hs⟩ := ih h
      refine ⟨(k, v) :: pre, kv, post, by simp [e], ?_, hkv, hs⟩
      intro x hx
      rcases List.mem_cons.1 hx with rfl | hx
      · exact hk
      · exact hpre x hx
    · exact ⟨[], (k, v), rest, rfl, by simp, hk, by simp [GetOp.scan, hk]⟩

theorem mem_order (o : IterOrder) (kv : Nat × Nat) : kv ∈ o.entries ↔ kv ∈ Mask2Op :=
  o.perm.mem_iff

theorem mem_Mask2Op (kv : Nat × Nat) (h : kv ∈ Mask2Op) :
    kv = (IN_CREATE, Create) ∨ kv = (IN_DELETE_SELF, Delete) ∨ kv = (IN_MOVE_SELF, Delete) ∨
      kv = (IN_MODIFY, Modify) := by
  simpa [Mask2Op] using h

theorem GetOp_false_iff (o : IterOrder) (mask : Nat) :
    (GetOp o mask).2 = false ↔
      (mask &&& IN_CREATE = 0 ∧ mask &&& IN_MODIFY = 0 ∧ mask &&& IN_DELETE_SELF = 0 ∧
        mask &&& IN_MOVE_SELF = 0) := by
  unfold GetOp
  rw [scan_false_iff]
  constructor
  · intro h
    refine ⟨h (IN_CREATE, Create) ?_, h (IN_MODIFY, Modify) ?_, h (IN_DELETE_SELF, Delete) ?_,
      h (IN_MOVE_SELF, Delete) ?_⟩ <;> rw [mem_order] <;> simp [Mask2Op]
  · rintro ⟨h1, h2, h3, h4⟩ kv hkv
    rw [mem_order] at hkv
    rcases mem_Mask2Op kv hkv with rfl | rfl | rfl | rfl <;> assumption

theorem GetOp_true_first (o : IterOrder) (mask : Nat) (h : (GetOp o mask).2 = true) :
    ∃ pre kv post, o.entries = pre ++ kv :: post ∧ (∀ x ∈ pre, mask &&& x.1 = 0) ∧
      kv ∈ Mask2Op ∧ mask &&& kv.1 ≠ 0 ∧ GetOp o mask = (kv.2, true) := by
  obtain ⟨pre, kv, post, e, hpre, hkv, hs⟩ := scan_first mask o.entries h
  refine ⟨pre, kv, post, e, hpre, ?_, hkv, hs⟩
  rw [← mem_order o, e]
  simp

theorem GetOp_true_mem (o : IterOrder) (mask : Nat) (h : (GetOp o mask).2 = true) :
    ∃ kv ∈ Mask2Op, mask &&& kv.1 ≠ 0 ∧ GetOp o mask = (kv.2, true) := by
  obtain ⟨_, kv, _, _, _, hm, hkv, hs⟩ := GetOp_true_first o mask h
  exact ⟨kv, hm, hkv, hs⟩

theorem GetMask_order (o : IterOrder) (op : Nat) : GetMask o op = GetMask declaredOrder op := by
  unfold GetMask
  haveI : RightCommutative
      (fun (mask : Nat) (kv : Nat × Nat) => if op &&& kv.2 = 0 then mask else mask ||| kv.1) :=
    ⟨by
      intro b x y
      by_cases hx : op &&& x.2 = 0 <;> by_cases hy : op &&& y.2 = 0 <;>
        simp [hx, hy, Nat.lor_assoc, Nat.lor_comm x.1 y.1]⟩
  exact o.perm.foldl_eq 0

/-- If all the entries of `Mask2Op` whose bit is in `mask` carry the same Op, every
iteration order gives the same result. -/
theorem GetOp_order_of_single (o1 o2 : IterOrder) (mask : Nat)
    (h : ∀ kv ∈ Mask2Op, ∀ kv' ∈ Mask2Op, mask &&& kv.1 ≠ 0 → mask &&& kv'.1 ≠ 0 → kv.2 = kv'.2) :
    GetOp o1 mask = GetOp o2 mask := by
  cases h1 : (GetOp o1 mask).2 with
  | false =>
    have h2 : (GetOp o2 mask).2 = false := (GetOp_false_iff o2 mask).2 ((GetOp_false_iff o1 mask).1 h1)
    have e1 := scan_false_fst mask o1.entries h1
    have e2 := scan_false_fst mask o2.entries h2
    exact Prod.ext (by unfold GetOp; rw [e1, e2]) (by rw [h1, h2])
  | true =>
    have h2 : (GetOp o2 mask).2 = true := by
      cases h2 : (GetOp o2 mask).2 with
      | true => rfl
      | false =>
        have := (GetOp_false_iff o1 mask).2 ((GetOp_false_iff o2 mask).1 h2)
        rw [h1] at this
        exact absurd this (by simp)
    obtain ⟨kv, hm, hkv, hs⟩ := GetOp_true_mem o1 mask h1
    obtain ⟨kv', hm', hkv', hs'⟩ := GetOp_true_mem o2 mask h2
    rw [hs, hs', h kv hm kv' hm' hkv hkv']

/-! ## Claims about the codec -/

/-- C2. Op round-trip: for `op` among `Create`, `Modify`, `Delete`, `AllOp`, and for
every iteration order of `Mask2Op` in `GetMask` and in `GetOp`,
`GetOp (GetMask op)` has `ok = true`, returns one of the three single Ops whose
bit is in `op`, and returns `op` itself when `op` is one of the three. -/
theorem op_round_trip (o1 o2 : IterOrder) (op : Nat)
    (hop : op = Create ∨ op = Modify ∨ op = Delete ∨ op = AllOp) :
    (GetOp o2 (GetMask o1 op)).2 = true ∧
      ((GetOp o2 (GetMask o1 op)).1 = Create ∨ (GetOp o2 (GetMask o1 op)).1 = Modify ∨
        (GetOp o2 (GetMask o1 op)).1 = Delete) ∧
      (GetOp o2 (GetMask o1 op)).1 &&& op = (GetOp o2 (GetMask o1 op)).1 ∧
      (op ≠ AllOp → (GetOp o2 (GetMask o1 op)).1 = op) := by
  rw [GetMask_order o1 op]
  have key : ∀ m : Nat, ¬ (m &&& IN_CREATE = 0 ∧ m &&& IN_MODIFY = 0 ∧ m &&& IN_DELETE_SELF = 0 ∧
      m &&& IN_MOVE_SELF = 0) → ∃ kv ∈ Mask2Op, m &&& kv.1 ≠ 0 ∧ GetOp o2 m = (kv.2, true) := by
    intro m hm
    apply GetOp_true_mem
    cases h : (GetOp o2 m).2 with
    | true => rfl
    | false => exact absurd ((GetOp_false_iff o2 m).1 h) hm
  rcases hop with rfl | rfl | rfl | rfl
  · obtain ⟨kv, hm, hkv, hs⟩ := key (GetMask declaredOrder Create) (by decide)
    rw [hs]
    rcases mem_Mask2Op kv hm with rfl | rfl | rfl | rfl <;> revert hkv <;> decide
  · obtain ⟨kv, hm, hkv, hs⟩ := key (GetMask declaredOrder Modify) (by decide)
    rw [hs]
    rcases mem_Mask2Op kv hm with rfl | rfl | rfl | rfl <;> revert hkv <;> decide
  · obtain ⟨kv, hm, hkv, hs⟩ := key (GetMask declaredOrder Delete) (by decide)
    rw [hs]
    rcases mem_Mask2Op kv hm with rfl | rfl | rfl | rfl <;> revert hkv <;> decide
  · obtain ⟨kv, hm, hkv, hs⟩ := key (GetMask declaredOrder AllOp) (by decide)
    rw [hs]
    rcases mem_Mask2Op kv hm with rfl | rfl | rfl | rfl <;> revert hkv <;> decide

/-- Witness of C2 at `AllOp`, `GetMask` walking the declared order and `GetOp` the
rotated one: the result is `Modify`, whose bit is in `AllOp`. -/
theorem op_round_trip_witness :
    (AllOp = Create ∨ AllOp = Modify ∨ AllOp = Delete ∨ AllOp = AllOp) ∧
      (GetOp rotatedOrder (GetMask declaredOrder AllOp)).2 = true ∧
      (GetOp rotatedOrder (GetMask declaredOrder AllOp)).1 &&& AllOp =
        (GetOp rotatedOrder (GetMask declaredOrder AllOp)).1 :=
  ⟨by decide,
    (op_round_trip declaredOrder rotatedOrder AllOp (by decide)).1,
    (op_round_trip declaredOrder rotatedOrder AllOp (by decide)).2.2.1⟩

/-- C8, counterexample. `GetOp` is not a function of the mask alone: on
`IN_CREATE | IN_MODIFY` the walk in the declared order returns `Create` and the
walk in the rotated order returns `Modify`. -/
theorem GetOp_depends_on_order :
    GetOp declaredOrder (IN_CREATE ||| IN_MODIFY) = (Create, true) ∧
      GetOp rotatedOrder (IN_CREATE ||| IN_MODIFY) = (Modify, true) ∧
      GetOp declaredOrder (IN_CREATE ||| IN_MODIFY) ≠
        GetOp rotatedOrder (IN_CREATE ||| IN_MODIFY) := by
  decide

/-- C8, amended. For every mask and every iteration order: `ok = false` exactly
when the mask has none of the four bits (and then the Op is 0); otherwise the
result is the Op of the first entry, in the order of this walk, whose bit is in
the mask; and two walks agree whenever all entries whose bit is in the mask
carry the same Op. -/
theorem GetOp_first_match (o : IterOrder) (mask : Nat) :
    ((GetOp o mask).2 = false ↔
        (mask &&& IN_CREATE = 0 ∧ mask &&& IN_MODIFY = 0 ∧ mask &&& IN_DELETE_SELF = 0 ∧
          mask &&& IN_MOVE_SELF = 0)) ∧
      ((GetOp o mask).2 = false → (GetOp o mask).1 = 0) ∧
      ((GetOp o mask).2 = true →
        ∃ pre kv post, o.entries = pre ++ kv :: post ∧ (∀ x ∈ pre, mask &&& x.1 = 0) ∧
          kv ∈ Mask2Op ∧ mask &&& kv.1 ≠ 0 ∧ GetOp o mask = (kv.2, true)) ∧
      ((∀ kv ∈ Mask2Op, ∀ kv' ∈ Mask2Op,
          mask &&& kv.1 ≠ 0 → mask &&& kv'.1 ≠ 0 → kv.2 = kv'.2) →
        ∀ o' : IterOrder, GetOp o' mask = GetOp o mask) :=
  ⟨GetOp_false_iff o mask, scan_false_fst mask o.entries, GetOp_true_first o mask,
    fun h o' => GetOp_order_of_single o' o mask h⟩

/-- Witness of C8 (amended) at `IN_DELETE_SELF | IN_MOVE_SELF`: both bits belong
to `Delete`, so the rotated and the declared order agree. -/
theorem GetOp_first_match_witness :
    (∀ kv ∈ Mask2Op, ∀ kv' ∈ Mask2Op,
        (IN_DELETE_SELF ||| IN_MOVE_SELF) &&& kv.1 ≠ 0 →
          (IN_DELETE_SELF ||| IN_MOVE_SELF) &&& kv'.1 ≠ 0 → kv.2 = kv'.2) ∧
      GetOp rotatedOrder (IN_DELETE_SELF ||| IN_MOVE_SELF) =
        GetOp declaredOrder (IN_DELETE_SELF ||| IN_MOVE_SELF) :=
  ⟨by decide,
    (GetOp_first_match declaredOrder (IN_DELETE_SELF ||| IN_MOVE_SELF)).2.2.2 (by decide)
      rotatedOrder⟩

/-! ## The watch table -/

theorem Add_locked (o : IterOrder) (reg : Except GoError Int) (w : Watcher) (f : String) (op : Nat)
    (h : w.mu = true) : Add o reg w f op = ⟨w, [], .deadlock⟩ := by
  simp [Add, h]

theorem Add_existing (o : IterOrder) (reg : Except GoError Int) (w : Watcher) (f : String)
    (op : Nat) (watch : Watch) (hmu : w.mu = false) (h : w.watchs (pathClean f) = some watch) :
    Add o reg w f op =
      ⟨{ w with
          watchs := Function.update w.watchs (pathClean f)
            (some { watch with Mask := GetMask o (if op = 0 then AllOp else op) }) },
        [], .returned none⟩ := by
  simp [Add, hmu, h]

theorem Add_failed (o : IterOrder) (e : GoError) (w : Watcher) (f : String)
    (op : Nat) (hmu : w.mu = false) (h : w.watchs (pathClean f) = none) :
    Add o (.error e) w f op =
      ⟨w, [(pathClean f, GetMask o (if op = 0 then AllOp else op))], .returned (some e)⟩ := by
  simp [Add, hmu, h]

theorem Add_new (o : IterOrder) (wd : Int) (w : Watcher) (f : String)
    (op : Nat) (hmu : w.mu = false) (h : w.watchs (pathClean f) = none) :
    Add o (.ok wd) w f op =
      ⟨{ w with
          watchs := Function.update w.watchs (pathClean f)
            (some { fd := wd, Mask := GetMask o (if op = 0 then AllOp else op) })
          paths := Function.update w.paths wd (some (pathClean f)) },
        [(pathClean f, GetMask o (if op = 0 then AllOp else op))], .returned none⟩ := by
  simp [Add, hmu, h]

theorem decode_locked (o : IterOrder) (w : Watcher) (ev : InotifyEvent) (h : w.mu = true) :
    handleInotifyEvent o w ev = ⟨w, [], .deadlock⟩ := by
  simp [handleInotifyEvent, h]

theorem decode_unknown (o : IterOrder) (w : Watcher) (ev : InotifyEvent) (hmu : w.mu = false)
    (h : w.paths ev.Wd = none) : handleInotifyEvent o w ev = ⟨w, [], .returned none⟩ := by
  simp [handleInotifyEvent, hmu, h]

theorem decode_unmapped (o : IterOrder) (w : Watcher) (ev : InotifyEvent) (p : String)
    (hmu : w.mu = false) (h : w.paths ev.Wd = some p) (hop : (GetOp o ev.Mask).2 = false) :
    handleInotifyEvent o w ev = ⟨{ w with mu := true }, [], .returned none⟩ := by
  have e : GetOp o ev.Mask = ((GetOp o ev.Mask).1, false) := Prod.ext rfl hop
  simp only [handleInotifyEvent, hmu, h]
  rw [e]
  simp

theorem decode_mapped (o : IterOrder) (w : Watcher) (ev : InotifyEvent) (p : String) (op : Nat)
    (watch : Watch) (hmu : w.mu = false) (h : w.paths ev.Wd = some p)
    (hop : GetOp o ev.Mask = (op, true)) (hw : w.watchs p = some watch) :
    handleInotifyEvent o w ev =
      ⟨if op &&& Delete ≠ 0 then
          { w with
            watchs := Function.update w.watchs p none
            paths := Function.update w.paths ev.Wd none }
        else w,
        if watch.Mask &&& ev.Mask = 0 then [] else [{ Name := p, Op := op }],
        .returned none⟩ := by
  simp only [handleInotifyEvent, hmu, h, hop, hw]
  by_cases hm : watch.Mask &&& ev.Mask = 0 <;> simp [hm]

theorem decode_nil (o : IterOrder) (w : Watcher) (ev : InotifyEvent) (p : String) (op : Nat)
    (hmu : w.mu = false) (h : w.paths ev.Wd = some p)
    (hop : GetOp o ev.Mask = (op, true)) (hw : w.watchs p = none) :
    handleInotifyEvent o w ev =
      ⟨if op &&& Delete ≠ 0 then
          { w with
            watchs := Function.update w.watchs p none
            paths := Function.update w.paths ev.Wd none }
        else w, [], .nilDeref⟩ := by
  simp [handleInotifyEvent, hmu, h, hop, hw]

/-- The cases of `Add`, as a case split on the state it is called in. -/
theorem Add_cases (o : IterOrder) (reg : Except GoError Int) (w : Watcher) (f : String) (op : Nat) :
    (w.mu = true ∧ Add o reg w f op = ⟨w, [], .deadlock⟩) ∨
    (∃ watch, w.mu = false ∧ w.watchs (pathClean f) = some watch ∧
      Add o reg w f op =
        ⟨{ w with
            watchs := Function.update w.watchs (pathClean f)
              (some { watch with Mask := GetMask o (if op = 0 then AllOp else op) }) },
          [], .returned none⟩) ∨
    (∃ e, reg = .error e ∧ w.mu = false ∧ w.watchs (pathClean f) = none ∧
      Add o reg w f op =
        ⟨w, [(pathClean f, GetMask o (if op = 0 then AllOp else op))], .returned (some e)⟩) ∨
    (∃ wd, reg = .ok wd ∧ w.mu = false ∧ w.watchs (pathClean f) = none ∧
      Add o reg w f op =
        ⟨{ w with
            watchs := Function.update w.watchs (pathClean f)
              (some { fd := wd, Mask := GetMask o (if op = 0 then AllOp else op) })
            paths := Function.update w.paths wd (some (pathClean f)) },
          [(pathClean f, GetMask o (if op = 0 then AllOp else op))], .returned none⟩) := by
  rcases Bool.eq_false_or_eq_true w.mu with hmu | hmu
  · exact Or.inl ⟨hmu, Add_locked o reg w f op hmu⟩
  · cases hw : w.watchs (pathClean f) with
    | some watch => exact Or.inr (Or.inl ⟨watch, hmu, rfl, Add_existing o reg w f op watch hmu hw⟩)
    | none =>
      cases reg with
      | error e => exact Or.inr (Or.inr (Or.inl ⟨e, rfl, hmu, rfl, Add_failed o e w f op hmu hw⟩))
      | ok wd => exact Or.inr (Or.inr (Or.inr ⟨wd, rfl, hmu, rfl, Add_new o wd w f op hmu hw⟩))

/-- The table after decoding a record is the old table, or the old table without
the entries of the record's handle and of its path. -/
theorem decode_table (o : IterOrder) (w : Watcher) (ev : InotifyEvent) :
    ((handleInotifyEvent o w ev).w.watchs = w.watchs ∧
      (handleInotifyEvent o w ev).w.paths = w.paths) ∨
    (∃ p, w.paths ev.Wd = some p ∧
      (handleInotifyEvent o w ev).w.watchs = Function.update w.watchs p none ∧
      (handleInotifyEvent o w ev).w.paths = Function.update w.paths ev.Wd none) := by
  rcases Bool.eq_false_or_eq_true w.mu with hmu | hmu
  · rw [decode_locked o w ev hmu]; exact Or.inl ⟨rfl, rfl⟩
  · cases hp : w.paths ev.Wd with
    | none => rw [decode_unknown o w ev hmu hp]; exact Or.inl ⟨rfl, rfl⟩
    | some p =>
      cases hok : (GetOp o ev.Mask).2 with
      | false => rw [decode_unmapped o w ev p hmu hp hok]; exact Or.inl ⟨rfl, rfl⟩
      | true =>
        have hop : GetOp o ev.Mask = ((GetOp o ev.Mask).1, true) := Prod.ext rfl hok
        have hw1 : (handleInotifyEvent o w ev).w =
            if (GetOp o ev.Mask).1 &&& Delete ≠ 0 then
              { w with
                watchs := Function.update w.watchs p none
                paths := Function.update w.paths ev.Wd none }
            else w := by
          cases hw : w.watchs p with
          | none => rw [decode_nil o w ev p _ hmu hp hop hw]
          | some watch => rw [decode_mapped o w ev p _ watch hmu hp hop hw]
        by_cases hd : (GetOp o ev.Mask).1 &&& Delete ≠ 0
        · rw [hw1, if_pos hd]
          exact Or.inr ⟨p, rfl, rfl, rfl⟩
        · rw [hw1, if_neg hd]
          exact Or.inl ⟨rfl, rfl⟩

/-! ## The table invariant -/

theorem ReverseOK_Add (o : IterOrder) (reg : Except GoError Int) (w : Watcher) (f : String)
    (op : Nat) (hw : ReverseOK w) : ReverseOK (Add o reg w f op).w := by
  rcases Add_cases o reg w f op with ⟨-, e⟩ | ⟨watch, -, hf, e⟩ | ⟨_, -, -, -, e⟩ |
    ⟨wd, -, -, hf, e⟩
  · rw [e]; exact hw
  · rw [e]
    intro h p hp
    obtain ⟨watch', hw', hfd⟩ := hw h p hp
    by_cases hpf : p = pathClean f
    · subst hpf
      rw [hf] at hw'
      cases hw'
      exact ⟨_, Function.update_same _ _ _, hfd⟩
    · exact ⟨watch', by simpa [Function.update_noteq hpf] using hw', hfd⟩
  · rw [e]; exact hw
  · rw [e]
    intro h p hp
    by_cases hh : h = wd
    · subst hh
      have : p = pathClean f := by simpa [Function.update_same] using hp.symm
      subst this
      exact ⟨_, Function.update_same _ _ _, rfl⟩
    · have hp' : w.paths h = some p := by simpa [Function.update_noteq hh] using hp
      obtain ⟨watch', hw', hfd⟩ := hw h p hp'
      have hpf : p ≠ pathClean f := by
        rintro rfl
        rw [hf] at hw'
        cases hw'
      exact ⟨watch', by simpa [Function.update_noteq hpf] using hw', hfd⟩

theorem ReverseOK_decode (o : IterOrder) (w : Watcher) (ev : InotifyEvent) (hw : ReverseOK w) :
    ReverseOK (handleInotifyEvent o w ev).w := by
  rcases decode_table o w ev with ⟨e1, e2⟩ | ⟨q, hq, e1, e2⟩
  · intro h p hp
    rw [e2] at hp
    rw [e1]
    exact hw h p hp
  · intro h p hp
    rw [e2] at hp
    rw [e1]
    have hh : h ≠ ev.Wd := by
      rintro rfl
      simp [Function.update_same] at hp
    rw [Function.update_noteq hh] at hp
    obtain ⟨watch, hw', hfd⟩ := hw h p hp
    have hpq : p ≠ q := by
      rintro rfl
      obtain ⟨watch2, hw2, hfd2⟩ := hw ev.Wd p hq
      rw [hw'] at hw2
      cases hw2
      exact hh (hfd.symm.trans hfd2)
    exact ⟨watch, by rw [Function.update_noteq hpq]; exact hw', hfd⟩

theorem ReverseOK_step (w : Watcher) (a : Action) (hw : ReverseOK w) : ReverseOK (step w a) := by
  cases a with
  | add o reg f op => exact ReverseOK_Add o reg w f op hw
  | decode o ev => exact ReverseOK_decode o w ev hw

theorem ReverseOK_run (trace : List Action) (w : Watcher) (hw : ReverseOK w) :
    ReverseOK (run w trace) := by
  induction trace generalizing w with
  | nil => exact hw
  | cons a rest ih => exact ih (step w a) (ReverseOK_step w a hw)

theorem ReverseOK_new (fd wfd : Int) : ReverseOK (NewWatcher fd wfd) := by
  intro h p hp
  simp [NewWatcher] at hp

theorem ReverseOK_reachable (w : Watcher) (hw : Reachable w) : ReverseOK w := by
  obtain ⟨fd, wfd, trace, rfl⟩ := hw
  exact ReverseOK_run trace _ (ReverseOK_new fd wfd)

theorem ForwardOK_Add (o : IterOrder) (reg : Except GoError Int) (w : Watcher) (f : String)
    (op : Nat) (hw : ForwardOK w)
    (hfresh : ∀ h, reg = .ok h → w.mu = false → w.watchs (pathClean f) = none → w.paths h = none) :
    ForwardOK (Add o reg w f op).w := by
  rcases Add_cases o reg w f op with ⟨-, e⟩ | ⟨watch, -, hf, e⟩ | ⟨_, -, -, -, e⟩ |
    ⟨wd, hreg, hmu, hf, e⟩
  · rw [e]; exact hw
  · rw [e]
    intro p watch' hp
    by_cases hpf : p = pathClean f
    · subst hpf
      have : watch' = { watch with Mask := GetMask o (if op = 0 then AllOp else op) } := by
        simpa [Function.update_same] using hp.symm
      subst this
      exact hw _ watch hf
    · exact hw p watch' (by simpa [Function.update_noteq hpf] using hp)
  · rw [e]; exact hw
  · rw [e]
    have hnone := hfresh wd hreg hmu hf
    intro p watch' hp
    by_cases hpf : p = pathClean f
    · subst hpf
      have : watch' = { fd := wd, Mask := GetMask o (if op = 0 then AllOp else op) } := by
        simpa [Function.update_same] using hp.symm
      subst this
      exact Function.update_same _ _ _
    · have hp' : w.watchs p = some watch' := by simpa [Function.update_noteq hpf] using hp
      have hold := hw p watch' hp'
      have hne : watch'.fd ≠ wd := by
        intro h
        rw [h, hnone] at hold
        cases hold
      show Function.update w.paths wd (some (pathClean f)) watch'.fd = some p
      rw [Function.update_noteq hne]
      exact hold

theorem ForwardOK_decode (o : IterOrder) (w : Watcher) (ev : InotifyEvent) (hw : ForwardOK w) :
    ForwardOK (handleInotifyEvent o w ev).w := by
  rcases decode_table o w ev with ⟨e1, e2⟩ | ⟨q, hq, e1, e2⟩
  · intro p watch hp
    rw [e1] at hp
    rw [e2]
    exact hw p watch hp
  · intro p watch hp
    rw [e1] at hp
    rw [e2]
    have hpq : p ≠ q := by
      rintro rfl
      simp [Function.update_same] at hp
    rw [Function.update_noteq hpq] at hp
    have hold := hw p watch hp
    have hne : watch.fd ≠ ev.Wd := by
      intro h
      rw [h, hq] at hold
      exact hpq (Option.some.inj hold).symm
    rw [Function.update_noteq hne]
    exact hold

theorem FreshHandles_cons (w : Watcher) (a : Action) (rest : List Action)
    (h : FreshHandles w (a :: rest)) :
    (∀ o hd f op, a = .add o (.ok hd) f op →
        w.mu = false → w.watchs (pathClean f) = none → w.paths hd = none) ∧
      FreshHandles (step w a) rest := by
  cases a with
  | add o reg f op =>
    cases reg with
    | error e =>
      refine ⟨?_, by simpa [FreshHandles] using h⟩
      intro o' hd f' op' he
      cases he
    | ok wd =>
      simp only [FreshHandles] at h
      refine ⟨?_, h.2⟩
      intro o' hd f' op' he
      cases he
      exact h.1
  | decode o ev =>
    refine ⟨?_, by simpa [FreshHandles] using h⟩
    intro o' hd f' op' he
    cases he

theorem Bijective_run (trace post : List Action) (w : Watcher) (hw : Bijective w)
    (hfresh : FreshHandles w (trace ++ post)) : Bijective (run w trace) := by
  induction trace generalizing w with
  | nil => exact hw
  | cons a rest ih =>
    obtain ⟨hnow, hlater⟩ := FreshHandles_cons w a (rest ++ post) hfresh
    refine ih (step w a) ?_ hlater
    cases a with
    | add o reg f op =>
      refine ⟨ForwardOK_Add o reg w f op hw.1 ?_, ReverseOK_Add o reg w f op hw.2⟩
      intro h hreg
      subst hreg
      exact hnow o h f op rfl
    | decode o ev => exact ⟨ForwardOK_decode o w ev hw.1, ReverseOK_decode o w ev hw.2⟩

theorem SameHandles_of_Bijective (w : Watcher) (hw : Bijective w) : SameHandles w := by
  intro h
  constructor
  · rintro ⟨p, watch, hp, rfl⟩
    exact ⟨p, hw.1 p watch hp⟩
  · rintro ⟨p, hp⟩
    obtain ⟨watch, hw', hfd⟩ := hw.2 h p hp
    exact ⟨p, watch, hw', hfd⟩

/-- C1, counterexample. Two different paths for which the kernel registration
returns the same handle 1 (two names of one file, here a relative and an
absolute one): after `Add "x"` and `Add "/tmp/x"` the forward entry of `"x"` has
handle 1, but the reverse entry of handle 1 is `"/tmp/x"`, so the two maps are
not inverses. -/
theorem alias_breaks_bijection :
    (run (NewWatcher 3 4)
        [.add declaredOrder (.ok 1) "x" 0, .add declaredOrder (.ok 1) "/tmp/x" 0]).watchs "x" =
        some ⟨1, GetMask declaredOrder AllOp⟩ ∧
      (run (NewWatcher 3 4)
        [.add declaredOrder (.ok 1) "x" 0, .add declaredOrder (.ok 1) "/tmp/x" 0]).paths 1 =
        some "/tmp/x" ∧
      ¬ Bijective (run (NewWatcher 3 4)
        [.add declaredOrder (.ok 1) "x" 0, .add declaredOrder (.ok 1) "/tmp/x" 0]) := by
  have h1 : (run (NewWatcher 3 4)
        [.add declaredOrder (.ok 1) "x" 0, .add declaredOrder (.ok 1) "/tmp/x" 0]).watchs "x" =
        some ⟨1, GetMask declaredOrder AllOp⟩ := by decide
  have h2 : (run (NewWatcher 3 4)
        [.add declaredOrder (.ok 1) "x" 0, .add declaredOrder (.ok 1) "/tmp/x" 0]).paths 1 =
        some "/tmp/x" := by decide
  refine ⟨h1, h2, ?_⟩
  intro hb
  have := hb.1 "x" _ h1
  rw [h2] at this
  exact absurd this (by decide)

/-- C1, amended. From the empty table of a new watcher, after every sequence of
`Add` calls and record decodes: every reverse entry `h -> p` has a forward entry
of `p` with handle `h`; and if every kernel registration that is issued returns
a handle that is not a key of the reverse map at that moment, then at every
point of the sequence the two maps are exact inverses and the handles of the
forward entries are exactly the keys of the reverse map. -/
theorem watch_table_bijection (fd wfd : Int) (trace post : List Action) :
    ReverseOK (run (NewWatcher fd wfd) trace) ∧
      (FreshHandles (NewWatcher fd wfd) (trace ++ post) →
        Bijective (run (NewWatcher fd wfd) trace) ∧
          SameHandles (run (NewWatcher fd wfd) trace)) := by
  refine ⟨ReverseOK_run trace _ (ReverseOK_new fd wfd), fun hfresh => ?_⟩
  have hb : Bijective (run (NewWatcher fd wfd) trace) :=
    Bijective_run trace post _
      ⟨by intro p watch hp; simp [NewWatcher] at hp, ReverseOK_new fd wfd⟩ hfresh
  exact ⟨hb, SameHandles_of_Bijective _ hb⟩

/-- Witness of C1 (amended): two paths registered with handles 1 and 2, the
first deleted by a record, then registered again with the new handle 5. -/
theorem watch_table_bijection_witness :
    FreshHandles (NewWatcher 3 4)
        ([.add declaredOrder (.ok 1) "/tmp/x" 0, .add rotatedOrder (.ok 2) "/tmp/y" Modify,
          .decode declaredOrder ⟨1, IN_DELETE_SELF, 0, 0⟩,
          .add declaredOrder (.ok 5) "/tmp/x" Create] ++ []) ∧
      Bijective (run (NewWatcher 3 4)
        [.add declaredOrder (.ok 1) "/tmp/x" 0, .add rotatedOrder (.ok 2) "/tmp/y" Modify,
          .decode declaredOrder ⟨1, IN_DELETE_SELF, 0, 0⟩,
          .add declaredOrder (.ok 5) "/tmp/x" Create]) :=
  have hfresh : FreshHandles (NewWatcher 3 4)
      ([.add declaredOrder (.ok 1) "/tmp/x" 0, .add rotatedOrder (.ok 2) "/tmp/y" Modify,
        .decode declaredOrder ⟨1, IN_DELETE_SELF, 0, 0⟩,
        .add declaredOrder (.ok 5) "/tmp/x" Create] ++ []) := by
    simp only [List.cons_append, List.nil_append, FreshHandles]
    decide
  ⟨hfresh, ((watch_table_bijection 3 4 _ []).2 hfresh).1⟩

/-! ## Re-adding a path -/

/-- C5. Idempotent re-add: if `Add p op1` succeeds, a following `Add p' op2` with
`path.Clean p' = path.Clean p` issues no kernel registration, returns no error,
releases the mutex, keeps the reverse map and the handle of the entry, changes
no other forward entry, and leaves the entry's `Mask` equal to `GetMask op2`
(`GetMask AllOp` when `op2 = 0`). -/
theorem idempotent_re_add (o1 o2 : IterOrder) (reg1 reg2 : Except GoError Int) (w : Watcher)
    (p p' : String) (op1 op2 : Nat) (hclean : pathClean p' = pathClean p)
    (hsucc : (Add o1 reg1 w p op1).exit = .returned none) :
    (Add o2 reg2 (Add o1 reg1 w p op1).w p' op2).calls = [] ∧
      (Add o2 reg2 (Add o1 reg1 w p op1).w p' op2).exit = .returned none ∧
      (Add o2 reg2 (Add o1 reg1 w p op1).w p' op2).w.mu = false ∧
      (Add o2 reg2 (Add o1 reg1 w p op1).w p' op2).w.paths = (Add o1 reg1 w p op1).w.paths ∧
      (∃ watch, (Add o1 reg1 w p op1).w.watchs (pathClean p) = some watch ∧
        (Add o2 reg2 (Add o1 reg1 w p op1).w p' op2).w.watchs (pathClean p) =
          some ⟨watch.fd, GetMask o2 (if op2 = 0 then AllOp else op2)⟩) ∧
      (∀ q, q ≠ pathClean p →
        (Add o2 reg2 (Add o1 reg1 w p op1).w p' op2).w.watchs q =
          (Add o1 reg1 w p op1).w.watchs q) := by
  have h1 : (Add o1 reg1 w p op1).w.mu = false ∧
      ∃ watch, (Add o1 reg1 w p op1).w.watchs (pathClean p) = some watch := by
    rcases Add_cases o1 reg1 w p op1 with ⟨-, e⟩ | ⟨watch, hmu, hf, e⟩ | ⟨_, -, -, -, e⟩ |
      ⟨wd, -, hmu, hf, e⟩
    · rw [e] at hsucc; cases hsucc
    · rw [e]; exact ⟨hmu, _, Function.update_same _ _ _⟩
    · rw [e] at hsucc; cases hsucc
    · rw [e]; exact ⟨hmu, _, Function.update_same _ _ _⟩
  obtain ⟨hmu, watch, hwatch⟩ := h1
  have hwatch' : (Add o1 reg1 w p op1).w.watchs (pathClean p') = some watch := by
    rw [hclean]; exact hwatch
  rw [Add_existing o2 reg2 _ p' op2 watch hmu hwatch', hclean]
  refine ⟨rfl, rfl, hmu, rfl, ⟨watch, hwatch, Function.update_same _ _ _⟩, ?_⟩
  intro q hq
  exact Function.update_noteq hq _ _

/-- Witness of C5: `Add "/tmp/x" Create` registers with handle 1; `Add "/tmp//x/"
Modify` then issues no call and leaves the mask `IN_MODIFY`. -/
theorem idempotent_re_add_witness :
    pathClean "/tmp//x/" = pathClean "/tmp/x" ∧
      (Add declaredOrder (.ok 1) (NewWatcher 3 4) "/tmp/x" Create).exit = .returned none ∧
      (Add rotatedOrder (.ok 2) (Add declaredOrder (.ok 1) (NewWatcher 3 4) "/tmp/x" Create).w
        "/tmp//x/" Modify).calls = [] :=
  ⟨by decide, by decide,
    (idempotent_re_add declaredOrder rotatedOrder (.ok 1) (.ok 2) (NewWatcher 3 4) "/tmp/x"
      "/tmp//x/" Create Modify (by decide) (by decide)).1⟩

/-! ## Filtering by the requested operations -/

theorem GetMask_Modify (o : IterOrder) : GetMask o Modify = IN_MODIFY := by
  rw [GetMask_order]; decide

theorem GetOp_of_single (o : IterOrder) (mask : Nat) (r : Nat × Bool)
    (h : GetOp declaredOrder mask = r)
    (hs : ∀ kv ∈ Mask2Op, ∀ kv' ∈ Mask2Op,
      mask &&& kv.1 ≠ 0 → mask &&& kv'.1 ≠ 0 → kv.2 = kv'.2) :
    GetOp o mask = r := by
  rw [GetOp_order_of_single o declaredOrder mask hs, h]

theorem GetOp_IN_CREATE (o : IterOrder) : GetOp o IN_CREATE = (Create, true) :=
  GetOp_of_single o _ _ (by decide) (by decide)

theorem GetOp_IN_MODIFY (o : IterOrder) : GetOp o IN_MODIFY = (Modify, true) :=
  GetOp_of_single o _ _ (by decide) (by decide)

theorem GetOp_IN_DELETE_SELF (o : IterOrder) : GetOp o IN_DELETE_SELF = (Delete, true) :=
  GetOp_of_single o _ _ (by decide) (by decide)

theorem GetOp_IN_MOVE_SELF (o : IterOrder) : GetOp o IN_MOVE_SELF = (Delete, true) :=
  GetOp_of_single o _ _ (by decide) (by decide)

/-- A record is delivered only if its handle is registered, the path has a
forward entry, and the record's mask shares a bit with the entry's `Mask`. -/
theorem sent_only_if_subscribed (o : IterOrder) (w : Watcher) (ev : InotifyEvent) (e : Event)
    (he : e ∈ (handleInotifyEvent o w ev).sent) :
    ∃ p watch, w.paths ev.Wd = some p ∧ w.watchs p = some watch ∧
      watch.Mask &&& ev.Mask ≠ 0 ∧ e = ⟨p, (GetOp o ev.Mask).1⟩ ∧
      (handleInotifyEvent o w ev).sent = [e] := by
  rcases Bool.eq_false_or_eq_true w.mu with hmu | hmu
  · rw [decode_locked o w ev hmu] at he; simp at he
  · cases hp : w.paths ev.Wd with
    | none => rw [decode_unknown o w ev hmu hp] at he; simp at he
    | some p =>
      cases hok : (GetOp o ev.Mask).2 with
      | false => rw [decode_unmapped o w ev p hmu hp hok] at he; simp at he
      | true =>
        have hop : GetOp o ev.Mask = ((GetOp o ev.Mask).1, true) := Prod.ext rfl hok
        cases hw : w.watchs p with
        | none => rw [decode_nil o w ev p _ hmu hp hop hw] at he; simp at he
        | some watch =>
          rw [decode_mapped o w ev p _ watch hmu hp hop hw] at he ⊢
          by_cases hm : watch.Mask &&& ev.Mask = 0
          · simp [hm] at he
          · simp only [hm, if_false, List.mem_singleton] at he ⊢
            exact ⟨p, watch, rfl, hw, hm, he, by rw [he]⟩

/-- C3. Subset filtering: from the empty table, after `Add p Modify` whose
registration returns handle `h`, a record `(h, IN_CREATE)` delivers no event
and a record `(h, IN_MODIFY)` delivers exactly the event
`(path.Clean p, Modify)`, both leaving the table as it is; and in every state a
record is delivered only when its mask shares a bit with the `Mask` stored for
its path. -/
theorem subset_filtering (o oc om : IterOrder) (fd wfd : Int) (p : String) (h : Int)
    (cookie len : Nat) :
    (Add o (.ok h) (NewWatcher fd wfd) p Modify).exit = .returned none ∧
      (Add o (.ok h) (NewWatcher fd wfd) p Modify).w.watchs (pathClean p) =
        some ⟨h, GetMask o Modify⟩ ∧
      handleInotifyEvent oc (Add o (.ok h) (NewWatcher fd wfd) p Modify).w
          ⟨h, IN_CREATE, cookie, len⟩ =
        ⟨(Add o (.ok h) (NewWatcher fd wfd) p Modify).w, [], .returned none⟩ ∧
      handleInotifyEvent om (Add o (.ok h) (NewWatcher fd wfd) p Modify).w
          ⟨h, IN_MODIFY, cookie, len⟩ =
        ⟨(Add o (.ok h) (NewWatcher fd wfd) p Modify).w, [⟨pathClean p, Modify⟩],
          .returned none⟩ ∧
      (∀ (o' : IterOrder) (w : Watcher) (ev : InotifyEvent) (e : Event),
        e ∈ (handleInotifyEvent o' w ev).sent →
          ∃ q watch, w.paths ev.Wd = some q ∧ w.watchs q = some watch ∧
            watch.Mask &&& ev.Mask ≠ 0) := by
  have hadd := Add_new o h (NewWatcher fd wfd) p Modify rfl rfl
  have hM : (if Modify = 0 then AllOp else Modify) = Modify := by decide
  rw [hM, GetMask_Modify] at hadd
  rw [hadd, GetMask_Modify]
  refine ⟨rfl, Function.update_same _ _ _, ?_, ?_, ?_⟩
  · rw [decode_mapped oc _ ⟨h, IN_CREATE, cookie, len⟩ (pathClean p) Create ⟨h, IN_MODIFY⟩ rfl
      (Function.update_same _ _ _) (GetOp_IN_CREATE oc) (Function.update_same _ _ _)]
    have h1 : ¬ (Create &&& Delete ≠ 0) := by decide
    have h2 : IN_MODIFY &&& IN_CREATE = 0 := by decide
    simp only [h1, h2, if_false, if_true]
  · rw [decode_mapped om _ ⟨h, IN_MODIFY, cookie, len⟩ (pathClean p) Modify ⟨h, IN_MODIFY⟩ rfl
      (Function.update_same _ _ _) (GetOp_IN_MODIFY om) (Function.update_same _ _ _)]
    have h1 : ¬ (Modify &&& Delete ≠ 0) := by decide
    have h2 : ¬ (IN_MODIFY &&& IN_MODIFY = 0) := by decide
    simp only [h1, h2, if_false]
  · intro o' w ev e he
    obtain ⟨q, watch, h1, h2, h3, -, -⟩ := sent_only_if_subscribed o' w ev e he
    exact ⟨q, watch, h1, h2, h3⟩

/-- Witness of C3 at `p = "/tmp/x"`, handle 1: the `IN_MODIFY` record delivers
exactly `Event{Name: "/tmp/x", Op: Modify}`, and the delivered event is in the
list of sent events, so its mask shares a bit with the stored mask. -/
theorem subset_filtering_witness :
    (handleInotifyEvent rotatedOrder
        (Add declaredOrder (.ok 1) (NewWatcher 3 4) "/tmp/x" Modify).w
        ⟨1, IN_MODIFY, 0, 0⟩).sent = [⟨"/tmp/x", Modify⟩] ∧
      (⟨"/tmp/x", Modify⟩ : Event) ∈ (handleInotifyEvent rotatedOrder
        (Add declaredOrder (.ok 1) (NewWatcher 3 4) "/tmp/x" Modify).w
        ⟨1, IN_MODIFY, 0, 0⟩).sent ∧
      ∃ q watch,
        (Add declaredOrder (.ok 1) (NewWatcher 3 4) "/tmp/x" Modify).w.paths 1 = some q ∧
          (Add declaredOrder (.ok 1) (NewWatcher 3 4) "/tmp/x" Modify).w.watchs q = some watch ∧
          watch.Mask &&& IN_MODIFY ≠ 0 :=
  ⟨by decide, by decide,
    (subset_filtering declaredOrder declaredOrder rotatedOrder 3 4 "/tmp/x" 1 0 0).2.2.2.2
      rotatedOrder (Add declaredOrder (.ok 1) (NewWatcher 3 4) "/tmp/x" Modify).w
      ⟨1, IN_MODIFY, 0, 0⟩ ⟨"/tmp/x", Modify⟩ (by decide)⟩

/-! ## Deleted targets -/

theorem paths_none_step (w : Watcher) (a : Action) (h : Int) (hp : w.paths h = none)
    (ha : ¬ a.registers h) : (step w a).paths h = none := by
  cases a with
  | add o reg f op =>
    show (Add o reg w f op).w.paths h = none
    rcases Add_cases o reg w f op with ⟨-, e⟩ | ⟨watch, -, -, e⟩ | ⟨_, -, -, -, e⟩ |
      ⟨wd, hreg, -, -, e⟩
    · rw [e]; exact hp
    · rw [e]; exact hp
    · rw [e]; exact hp
    · rw [e]
      subst hreg
      have hne : h ≠ wd := fun hh => ha hh.symm
      show Function.update w.paths wd (some (pathClean f)) h = none
      rw [Function.update_noteq hne]
      exact hp
  | decode o ev =>
    show (handleInotifyEvent o w ev).w.paths h = none
    rcases decode_table o w ev with ⟨-, e2⟩ | ⟨q, -, -, e2⟩
    · rw [e2]; exact hp
    · rw [e2]
      by_cases hh : h = ev.Wd
      · rw [hh]; exact Function.update_same _ _ _
      · rw [Function.update_noteq hh]; exact hp

theorem paths_none_run (trace : List Action) (w : Watcher) (h : Int) (hp : w.paths h = none)
    (ha : ∀ a ∈ trace, ¬ a.registers h) : (run w trace).paths h = none := by
  induction trace generalizing w with
  | nil => exact hp
  | cons a rest ih =>
    exact ih (step w a) (paths_none_step w a h hp (ha a (List.mem_cons_self _ _)))
      (fun b hb => ha b (List.mem_cons_of_mem _ hb))

theorem decode_mapped_state (o : IterOrder) (w : Watcher) (ev : InotifyEvent) (p : String)
    (op : Nat) (hmu : w.mu = false) (h : w.paths ev.Wd = some p)
    (hop : GetOp o ev.Mask = (op, true)) :
    (handleInotifyEvent o w ev).w =
      if op &&& Delete ≠ 0 then
        { w with
          watchs := Function.update w.watchs p none
          paths := Function.update w.paths ev.Wd none }
      else w := by
  cases hw : w.watchs p with
  | none => rw [decode_nil o w ev p op hmu h hop hw]
  | some watch => rw [decode_mapped o w ev p op watch hmu h hop hw]

/-- The part of delete consistency that the code keeps. In every table with the
mutex free and handle `h = ev.Wd` mapped to path `p`, once a record is decoded
to `Delete` (as every
iteration order does for the masks `IN_DELETE_SELF` and `IN_MOVE_SELF`) the
forward entry of `p` and the reverse entry of `h` are removed, no other entry
changes and the mutex is free, whether or not an event was sent; in a table a
watcher can have the call returns nil. After any later calls none of which is an
`Add` whose registration returns `h`, a record carrying `h` sends no event and
leaves the watcher unchanged; it returns nil when the mutex is free and
otherwise never returns. -/
theorem delete_consistency (w : Watcher) (o : IterOrder) (ev : InotifyEvent)
    (p : String) (hmu : w.mu = false) (hp : w.paths ev.Wd = some p)
    (hop : GetOp o ev.Mask = (Delete, true)) :
    (handleInotifyEvent o w ev).w.mu = false ∧
      (handleInotifyEvent o w ev).w.watchs p = none ∧
      (handleInotifyEvent o w ev).w.paths ev.Wd = none ∧
      (∀ q, q ≠ p → (handleInotifyEvent o w ev).w.watchs q = w.watchs q) ∧
      (∀ h, h ≠ ev.Wd → (handleInotifyEvent o w ev).w.paths h = w.paths h) ∧
      (Reachable w → (handleInotifyEvent o w ev).exit = .returned none) ∧
      (∀ (trace : List Action), (∀ a ∈ trace, ¬ a.registers ev.Wd) →
        ∀ (o2 : IterOrder) (ev2 : InotifyEvent), ev2.Wd = ev.Wd →
          (handleInotifyEvent o2 (run (handleInotifyEvent o w ev).w trace) ev2).sent = [] ∧
            (handleInotifyEvent o2 (run (handleInotifyEvent o w ev).w trace) ev2).w =
              run (handleInotifyEvent o w ev).w trace ∧
            (handleInotifyEvent o2 (run (handleInotifyEvent o w ev).w trace) ev2).exit =
              if (run (handleInotifyEvent o w ev).w trace).mu then .deadlock
              else .returned none) ∧
      (∀ o' : IterOrder,
        GetOp o' IN_DELETE_SELF = (Delete, true) ∧ GetOp o' IN_MOVE_SELF = (Delete, true)) := by
  have hd : Delete &&& Delete ≠ 0 := by decide
  have e := decode_mapped_state o w ev p Delete hmu hp hop
  rw [if_pos hd] at e
  have hnone : (handleInotifyEvent o w ev).w.paths ev.Wd = none := by
    rw [e]; exact Function.update_same _ _ _
  refine ⟨by rw [e]; exact hmu, by rw [e]; exact Function.update_same _ _ _, hnone,
    fun q hq => by rw [e]; exact Function.update_noteq hq _ _,
    fun h hh => by rw [e]; exact Function.update_noteq hh _ _,
    ?_, ?_, fun o' => ⟨GetOp_IN_DELETE_SELF o', GetOp_IN_MOVE_SELF o'⟩⟩
  · intro hw
    obtain ⟨watch, hwatch, -⟩ := ReverseOK_reachable w hw ev.Wd p hp
    rw [decode_mapped o w ev p Delete watch hmu hp hop hwatch]
  · intro trace htrace o2 ev2 hev2
    have hlater := paths_none_run trace _ ev.Wd hnone htrace
    rw [← hev2] at hlater
    rcases Bool.eq_false_or_eq_true (run (handleInotifyEvent o w ev).w trace).mu with h | h
    · rw [decode_locked o2 _ ev2 h, h]
      exact ⟨rfl, rfl, rfl⟩
    · rw [decode_unknown o2 _ ev2 h hlater, h]
      exact ⟨rfl, rfl, by simp⟩

/-- An instance of `delete_consistency`: `"/tmp/x"` is watched with handle 1; the record
`(1, IN_DELETE_SELF)` removes both entries and returns nil, and a later record
for handle 1, after another path was added, is dropped. -/
theorem delete_consistency_witness :
    Reachable (Add declaredOrder (.ok 1) (NewWatcher 3 4) "/tmp/x" 0).w ∧
      (handleInotifyEvent rotatedOrder (Add declaredOrder (.ok 1) (NewWatcher 3 4) "/tmp/x" 0).w
        ⟨1, IN_DELETE_SELF, 0, 0⟩).w.watchs "/tmp/x" = none ∧
      (handleInotifyEvent rotatedOrder (Add declaredOrder (.ok 1) (NewWatcher 3 4) "/tmp/x" 0).w
        ⟨1, IN_DELETE_SELF, 0, 0⟩).exit = .returned none ∧
      (handleInotifyEvent declaredOrder
        (run (handleInotifyEvent rotatedOrder
          (Add declaredOrder (.ok 1) (NewWatcher 3 4) "/tmp/x" 0).w
          ⟨1, IN_DELETE_SELF, 0, 0⟩).w [.add declaredOrder (.ok 2) "/tmp/y" 0])
        ⟨1, IN_MODIFY, 0, 0⟩).sent = [] :=
  have hreach : Reachable (Add declaredOrder (.ok 1) (NewWatcher 3 4) "/tmp/x" 0).w :=
    ⟨3, 4, [.add declaredOrder (.ok 1) "/tmp/x" 0], rfl⟩
  have h := delete_consistency (Add declaredOrder (.ok 1) (NewWatcher 3 4) "/tmp/x" 0).w
    rotatedOrder ⟨1, IN_DELETE_SELF, 0, 0⟩ "/tmp/x" (by decide) (by decide) (by decide)
  ⟨hreach, h.2.1, h.2.2.2.2.2.1 hreach,
    (h.2.2.2.2.2.2.1 [.add declaredOrder (.ok 2) "/tmp/y" 0]
      (by
        intro a ha
        rw [List.mem_singleton] at ha
        subst ha
        show ¬ ((2 : Int) = 1)
        decide)
      declaredOrder ⟨1, IN_MODIFY, 0, 0⟩ rfl).1⟩

/-- C4, the code at the failing input. `"/tmp/x"` is watched with `AllOp` and
handle 1, `"/tmp/y"` with `Create` and handle 2, the mutex is free. The record
`(1, IN_MOVE_SELF)` decodes to `Delete`, returns nil and removes both entries
of `"/tmp/x"`. The record `(2, IN_IGNORED)` then matches no entry of `Mask2Op`
and returns with the mutex held. No `Add` has run, handle 1 is still
unregistered, and the later record `(1, IN_MODIFY)` does not return: it is
blocked in `w.mu.Lock()` instead of being dropped with a nil result. -/
theorem later_record_blocks_after_delete :
    (run (NewWatcher 3 4)
        [.add declaredOrder (.ok 1) "/tmp/x" 0,
          .add declaredOrder (.ok 2) "/tmp/y" Create]).mu = false ∧
      (run (NewWatcher 3 4)
        [.add declaredOrder (.ok 1) "/tmp/x" 0,
          .add declaredOrder (.ok 2) "/tmp/y" Create]).paths 1 = some "/tmp/x" ∧
      GetOp declaredOrder IN_MOVE_SELF = (Delete, true) ∧
      (handleInotifyEvent declaredOrder
        (run (NewWatcher 3 4)
          [.add declaredOrder (.ok 1) "/tmp/x" 0,
            .add declaredOrder (.ok 2) "/tmp/y" Create])
        ⟨1, IN_MOVE_SELF, 0, 0⟩).exit = .returned none ∧
      (run (NewWatcher 3 4)
        [.add declaredOrder (.ok 1) "/tmp/x" 0,
          .add declaredOrder (.ok 2) "/tmp/y" Create,
          .decode declaredOrder ⟨1, IN_MOVE_SELF, 0, 0⟩]).watchs "/tmp/x" = none ∧
      (run (NewWatcher 3 4)
        [.add declaredOrder (.ok 1) "/tmp/x" 0,
          .add declaredOrder (.ok 2) "/tmp/y" Create,
          .decode declaredOrder ⟨1, IN_MOVE_SELF, 0, 0⟩]).paths 1 = none ∧
      (run (NewWatcher 3 4)
        [.add declaredOrder (.ok 1) "/tmp/x" 0,
          .add declaredOrder (.ok 2) "/tmp/y" Create,
          .decode declaredOrder ⟨1, IN_MOVE_SELF, 0, 0⟩]).mu = false ∧
      (handleInotifyEvent declaredOrder
        (run (NewWatcher 3 4)
          [.add declaredOrder (.ok 1) "/tmp/x" 0,
            .add declaredOrder (.ok 2) "/tmp/y" Create,
            .decode declaredOrder ⟨1, IN_MOVE_SELF, 0, 0⟩])
        ⟨2, IN_IGNORED, 0, 0⟩).exit = .returned none ∧
      (run (NewWatcher 3 4)
        [.add declaredOrder (.ok 1) "/tmp/x" 0,
          .add declaredOrder (.ok 2) "/tmp/y" Create,
          .decode declaredOrder ⟨1, IN_MOVE_SELF, 0, 0⟩,
          .decode declaredOrder ⟨2, IN_IGNORED, 0, 0⟩]).mu = true ∧
      (run (NewWatcher 3 4)
        [.add declaredOrder (.ok 1) "/tmp/x" 0,
          .add declaredOrder (.ok 2) "/tmp/y" Create,
          .decode declaredOrder ⟨1, IN_MOVE_SELF, 0, 0⟩,
          .decode declaredOrder ⟨2, IN_IGNORED, 0, 0⟩]).paths 1 = none ∧
      (handleInotifyEvent declaredOrder
        (run (NewWatcher 3 4)
          [.add declaredOrder (.ok 1) "/tmp/x" 0,
            .add declaredOrder (.ok 2) "/tmp/y" Create,
            .decode declaredOrder ⟨1, IN_MOVE_SELF, 0, 0⟩,
            .decode declaredOrder ⟨2, IN_IGNORED, 0, 0⟩])
        ⟨1, IN_MODIFY, 0, 0⟩).exit = .deadlock := by
  decide

/-! ## The mutex -/

/-- C10, the code at the failing input. `"/tmp/x"` is watched for `Create` with
handle 1 and the mutex is free. The record `(1, IN_IGNORED)` matches no entry of
`Mask2Op`: `handleInotifyEvent` returns nil and the mutex is still held. The
next `Add` and the next record decode never return. -/
theorem unmapped_mask_keeps_mutex :
    (Add declaredOrder (.ok 1) (NewWatcher 3 4) "/tmp/x" Create).w.mu = false ∧
      (Add declaredOrder (.ok 1) (NewWatcher 3 4) "/tmp/x" Create).w.paths 1 = some "/tmp/x" ∧
      GetOp declaredOrder IN_IGNORED = (0, false) ∧
      (handleInotifyEvent declaredOrder
        (Add declaredOrder (.ok 1) (NewWatcher 3 4) "/tmp/x" Create).w
        ⟨1, IN_IGNORED, 0, 0⟩).exit = .returned none ∧
      (handleInotifyEvent declaredOrder
        (Add declaredOrder (.ok 1) (NewWatcher 3 4) "/tmp/x" Create).w
        ⟨1, IN_IGNORED, 0, 0⟩).w.mu = true ∧
      (Add declaredOrder (.ok 2)
        (handleInotifyEvent declaredOrder
          (Add declaredOrder (.ok 1) (NewWatcher 3 4) "/tmp/x" Create).w
          ⟨1, IN_IGNORED, 0, 0⟩).w "/tmp/y" 0).exit = .deadlock ∧
      (handleInotifyEvent declaredOrder
        (handleInotifyEvent declaredOrder
          (Add declaredOrder (.ok 1) (NewWatcher 3 4) "/tmp/x" Create).w
          ⟨1, IN_IGNORED, 0, 0⟩).w ⟨1, IN_CREATE, 0, 0⟩).exit = .deadlock := by
  decide

/-! ## Reads of the inotify descriptor -/

theorem handleEpollEvent_short (ord : Nat → IterOrder) (fuel : Nat) (w : Watcher)
    (ev : EpollEvent) (data : List Nat) (hfd : w.fd = ev.Fd)
    (hshort : data.length < SizeofInotifyEvent) :
    handleEpollEvent ord fuel w ev (.ok data) =
      some ⟨w, [], [], 1,
        .returned (some (if data.length = 0 then .EOF
          else .text "notify: short read in handleEvent"))⟩ := by
  simp only [handleEpollEvent, hfd, ne_eq, not_true_eq_false, if_false, hshort, if_true]
  split <;> rfl

theorem handleEpollEvent_failed (ord : Nat → IterOrder) (fuel : Nat) (w : Watcher)
    (ev : EpollEvent) (err : GoError) (hfd : w.fd = ev.Fd) :
    handleEpollEvent ord fuel w ev (.error err) =
      some ⟨w, [], [], 1, .returned (if err = .errno EINTR then none else some err)⟩ := by
  simp [handleEpollEvent, hfd]

/-- C7. Short read: a successful read of fewer than 16 bytes decodes no record,
sends no event and leaves the watcher unchanged; `handleEpollEvent` returns
`io.EOF` for 0 bytes and the error "notify: short read in handleEvent" otherwise,
two different errors; `waitEvents` sends exactly that error on `w.Err` and
leaves the loop (the deferred `Close` runs) without another read, whatever
readiness is still pending. -/
theorem short_read_failure (ord : Nat → IterOrder) (ord2 : Nat → Nat → IterOrder) (fuel : Nat)
    (reads : Nat → Except GoError (List Nat)) (s : LoopState) (ev : EpollEvent)
    (rest : List EpollEvent) (later : List (Except GoError (List EpollEvent)))
    (data : List Nat) (hfd : s.w.fd = ev.Fd) (hwake : ev.Fd ≠ toInt32 s.w.wfd)
    (hread : reads s.reads = .ok data) (hshort : data.length < SizeofInotifyEvent) :
    handleEpollEvent ord fuel s.w ev (.ok data) =
        some ⟨s.w, [], [], 1,
          .returned (some (if data.length = 0 then .EOF
            else .text "notify: short read in handleEvent"))⟩ ∧
      GoError.EOF ≠ GoError.text "notify: short read in handleEvent" ∧
      waitEvents fuel reads ord2 (.ok (ev :: rest) :: later) s =
        (⟨s.w, s.sent,
            s.errs ++ [if data.length = 0 then .EOF
              else .text "notify: short read in handleEvent"],
            s.reads + 1⟩, .closed) := by
  refine ⟨handleEpollEvent_short ord fuel s.w ev data hfd hshort, by simp, ?_⟩
  have hne : (if data.length = 0 then GoError.EOF
      else GoError.text "notify: short read in handleEvent") ≠ GoError.errno EINTR := by
    split <;> simp
  simp only [waitEvents, waitEvents.range, if_neg hwake, hread,
    handleEpollEvent_short (ord2 s.reads) fuel s.w ev data hfd hshort]
  rw [if_pos hne]
  simp

/-- Witness of C7 at a read of 3 bytes: the error sent is the short-read error. -/
theorem short_read_failure_witness :
    waitEvents 8 (fun _ => .ok [1, 0, 0]) (fun _ _ => declaredOrder)
        [.ok [⟨1, 3, 0⟩, ⟨1, 3, 0⟩], .ok [⟨1, 3, 0⟩]] ⟨NewWatcher 3 4, [], [], 0⟩ =
      (⟨NewWatcher 3 4, [],
          [] ++ [if [1, 0, 0].length = 0 then GoError.EOF
            else GoError.text "notify: short read in handleEvent"], 0 + 1⟩, .closed) :=
  (short_read_failure (fun _ => declaredOrder) (fun _ _ => declaredOrder) 8
    (fun _ => .ok [1, 0, 0]) ⟨NewWatcher 3 4, [], [], 0⟩ ⟨1, 3, 0⟩ [⟨1, 3, 0⟩]
    [.ok [⟨1, 3, 0⟩]] [1, 0, 0] rfl (by decide) rfl (by decide)).2.2

/-- C9, counterexample. A read that fails with `EAGAIN` is reported:
`handleEpollEvent` returns `EAGAIN`, and `waitEvents` sends it on `w.Err` and
leaves the loop after that one read, although more readiness was pending. -/
theorem would_block_is_reported :
    (handleEpollEvent (fun _ => declaredOrder) 8 (NewWatcher 3 4) ⟨1, 3, 0⟩
        (.error (.errno EAGAIN))).map (fun r => r.exit) =
        some (.returned (some (.errno EAGAIN))) ∧
      (waitEvents 8 (fun _ => .error (.errno EAGAIN)) (fun _ _ => declaredOrder)
        [.ok [⟨1, 3, 0⟩], .ok [⟨1, 3, 0⟩]] ⟨NewWatcher 3 4, [], [], 0⟩).1.errs =
        [.errno EAGAIN] ∧
      (waitEvents 8 (fun _ => .error (.errno EAGAIN)) (fun _ _ => declaredOrder)
        [.ok [⟨1, 3, 0⟩], .ok [⟨1, 3, 0⟩]] ⟨NewWatcher 3 4, [], [], 0⟩).1.reads = 1 ∧
      (waitEvents 8 (fun _ => .error (.errno EAGAIN)) (fun _ _ => declaredOrder)
        [.ok [⟨1, 3, 0⟩], .ok [⟨1, 3, 0⟩]] ⟨NewWatcher 3 4, [], [], 0⟩).2 = .closed := by
  decide

/-- C9, amended. The read error that is not an error is `EINTR`: when the read
fails with `EINTR`, `handleEpollEvent` decodes no record and returns nil, and
`waitEvents` sends nothing on `w.Err` and goes on with the rest of the ready
descriptors and the next `poller.Wait`. Every other read error, `EAGAIN`
included, is returned by `handleEpollEvent` with no record decoded, and
`waitEvents` sends it on `w.Err` and leaves the loop. -/
theorem interrupted_read_is_ignored (ord : Nat → IterOrder) (ord2 : Nat → Nat → IterOrder)
    (fuel : Nat) (reads : Nat → Except GoError (List Nat)) (s : LoopState) (ev : EpollEvent)
    (rest : List EpollEvent) (later : List (Except GoError (List EpollEvent)))
    (hfd : s.w.fd = ev.Fd) (hwake : ev.Fd ≠ toInt32 s.w.wfd) :
    handleEpollEvent ord fuel s.w ev (.error (.errno EINTR)) =
        some ⟨s.w, [], [], 1, .returned none⟩ ∧
      (reads s.reads = .error (.errno EINTR) →
        waitEvents fuel reads ord2 (.ok (ev :: rest) :: later) s =
          waitEvents fuel reads ord2 (.ok rest :: later) ⟨s.w, s.sent, s.errs, s.reads + 1⟩) ∧
      (∀ err : GoError, err ≠ .errno EINTR →
        handleEpollEvent ord fuel s.w ev (.error err) =
            some ⟨s.w, [], [], 1, .returned (some err)⟩ ∧
          (reads s.reads = .error err →
            waitEvents fuel reads ord2 (.ok (ev :: rest) :: later) s =
              (⟨s.w, s.sent, s.errs ++ [err], s.reads + 1⟩, .closed))) := by
  refine ⟨?_, ?_, ?_⟩
  · rw [handleEpollEvent_failed ord fuel s.w ev _ hfd]
    simp
  · intro hread
    simp only [waitEvents, waitEvents.range, if_neg hwake, hread,
      handleEpollEvent_failed (ord2 s.reads) fuel s.w ev _ hfd]
    simp
  · intro err herr
    refine ⟨?_, ?_⟩
    · rw [handleEpollEvent_failed ord fuel s.w ev _ hfd]
      simp [herr]
    · intro hread
      simp only [waitEvents, waitEvents.range, if_neg hwake, hread,
        handleEpollEvent_failed (ord2 s.reads) fuel s.w ev _ hfd]
      simp [herr]

/-- Witness of C9 (amended): one `EINTR` read, then the loop waits again. -/
theorem interrupted_read_is_ignored_witness :
    waitEvents 8 (fun _ => .error (.errno EINTR)) (fun _ _ => declaredOrder)
        [.ok [⟨1, 3, 0⟩]] ⟨NewWatcher 3 4, [], [], 0⟩ =
      waitEvents 8 (fun _ => .error (.errno EINTR)) (fun _ _ => declaredOrder)
        [.ok []] ⟨NewWatcher 3 4, [], [], 0 + 1⟩ ∧
    waitEvents 8 (fun _ => .error (.errno EAGAIN)) (fun _ _ => declaredOrder)
        [.ok [⟨1, 3, 0⟩]] ⟨NewWatcher 3 4, [], [], 0⟩ =
      (⟨NewWatcher 3 4, [], [] ++ [.errno EAGAIN], 0 + 1⟩, .closed) :=
  ⟨(interrupted_read_is_ignored (fun _ => declaredOrder) (fun _ _ => declaredOrder) 8
      (fun _ => .error (.errno EINTR)) ⟨NewWatcher 3 4, [], [], 0⟩ ⟨1, 3, 0⟩ [] []
      rfl (by decide)).2.1 rfl,
    ((interrupted_read_is_ignored (fun _ => declaredOrder) (fun _ _ => declaredOrder) 8
      (fun _ => .error (.errno EAGAIN)) ⟨NewWatcher 3 4, [], [], 0⟩ ⟨1, 3, 0⟩ [] []
      rfl (by decide)).2.2 (.errno EAGAIN) (by decide)).2 rfl⟩

/-! ## A decode pass over well-formed records -/

theorem byteAt_append (pre l : List Nat) (i : Nat) :
    byteAt (pre ++ l) (pre.length + i) = byteAt l i := by
  unfold byteAt
  rw [List.getD_append_right _ _ _ _ (Nat.le_add_right _ _)]
  simp

theorem le32_append (pre l : List Nat) (i : Nat) :
    le32 (pre ++ l) (pre.length + i) = le32 l i := by
  unfold le32
  rw [byteAt_append, Nat.add_assoc pre.length i 1, byteAt_append, Nat.add_assoc pre.length i 2,
    byteAt_append, Nat.add_assoc pre.length i 3, byteAt_append]

theorem headerAt_append (pre l : List Nat) : headerAt (pre ++ l) pre.length = headerAt l 0 := by
  unfold headerAt
  have h0 := le32_append pre l 0
  rw [Nat.add_zero] at h0
  rw [h0, le32_append, le32_append, le32_append]

theorem headerAt_encodeRecord (ev : InotifyEvent) (post : List Nat) (h : ev.WF) :
    headerAt (encodeRecord ev ++ post) 0 = ev := by
  obtain ⟨h1, h2, h3, h4, h5⟩ := h
  obtain ⟨wd, mask, cookie, len⟩ := ev
  simp only at h1 h2 h3 h4 h5
  simp only [headerAt, le32, byteAt, encodeRecord, List.cons_append, List.nil_append,
    List.getD_cons_zero, List.getD_cons_succ, toInt32, InotifyEvent.mk.injEq]
  refine ⟨?_, ?_, ?_, ?_⟩ <;> omega

theorem length_encodeRecord (ev : InotifyEvent) :
    (encodeRecord ev).length = SizeofInotifyEvent + ev.Len := by
  simp only [encodeRecord, SizeofInotifyEvent, List.length_append, List.length_cons,
    List.length_nil, List.length_replicate]

theorem length_encodeAll_cons (ev : InotifyEvent) (rest : List InotifyEvent) :
    (encodeAll (ev :: rest)).length = SizeofInotifyEvent + ev.Len + (encodeAll rest).length := by
  simp only [encodeAll, List.length_append, length_encodeRecord]

/-- The loop of `handleEpollEvent`, started at the end of the bytes `pre` with the
records `recs` still ahead, does what `decodeInOrder` does on `recs`, and needs
one round per record and one more to leave. -/
theorem loop_eq_decodeInOrder (ord : Nat → IterOrder) (recs : List InotifyEvent) :
    ∀ (pre : List Nat) (fuel : Nat) (w : Watcher) (sent : List Event) (visited : List Nat),
      (∀ r ∈ recs, r.WF) → recs.length < fuel →
      SizeofInotifyEvent ≤ (pre ++ encodeAll recs).length →
      (pre ++ encodeAll recs).length < 2 ^ 32 →
      handleEpollEvent.loop ord (pre ++ encodeAll recs) (pre ++ encodeAll recs).length fuel w
          pre.length sent visited =
        some (decodeInOrder ord recs w pre.length sent visited) := by
  induction recs with
  | nil =>
    intro pre fuel w sent visited _ hfuel h16 h32
    obtain ⟨fuel, rfl⟩ : ∃ k, fuel = k + 1 := ⟨fuel - 1, by simp at hfuel; omega⟩
    simp only [encodeAll, List.append_nil, SizeofInotifyEvent] at h16 h32 ⊢
    have hguard : ¬ pre.length ≤ (pre.length - 16) % 2 ^ 32 := by omega
    simp only [handleEpollEvent.loop, SizeofInotifyEvent, hguard, if_false, decodeInOrder]
  | cons r rest ih =>
    intro pre fuel w sent visited hwf hfuel h16 h32
    obtain ⟨fuel, rfl⟩ : ∃ k, fuel = k + 1 := ⟨fuel - 1, by simp at hfuel; omega⟩
    have hr : r.WF := hwf r (List.mem_cons_self _ _)
    have hlen := length_encodeAll_cons r rest
    have hhead : headerAt (pre ++ encodeAll (r :: rest)) pre.length = r := by
      rw [headerAt_append]
      exact headerAt_encodeRecord r _ hr
    have hsplit : pre ++ encodeAll (r :: rest) = (pre ++ encodeRecord r) ++ encodeAll rest := by
      simp [encodeAll]
    have hpre : (pre ++ encodeRecord r).length = pre.length + (SizeofInotifyEvent + r.Len) := by
      rw [List.length_append, length_encodeRecord]
    have htot : (pre ++ encodeAll (r :: rest)).length =
        pre.length + (SizeofInotifyEvent + r.Len + (encodeAll rest).length) := by
      rw [List.length_append, hlen]
    have hguard : pre.length ≤
        ((pre ++ encodeAll (r :: rest)).length - SizeofInotifyEvent) % 2 ^ 32 := by
      rw [htot]
      simp only [SizeofInotifyEvent] at h32 htot ⊢
      omega
    have hoff : (pre.length + (SizeofInotifyEvent + r.Len) % 2 ^ 32) % 2 ^ 32 =
        (pre ++ encodeRecord r).length := by
      rw [hpre]
      rw [htot] at h32
      simp only [SizeofInotifyEvent] at h32 ⊢
      omega
    have hih := ih (pre ++ encodeRecord r) fuel
      (handleInotifyEvent (ord visited.length) w r).w
      (sent ++ (handleInotifyEvent (ord visited.length) w r).sent) (visited ++ [pre.length])
      (fun x hx => hwf x (List.mem_cons_of_mem _ hx))
      (by simp at hfuel; omega) (by rw [← hsplit]; exact h16) (by rw [← hsplit]; exact h32)
    rw [← hsplit, hpre] at hih
    rw [handleEpollEvent.loop, if_pos hguard]
    simp only [hhead, hoff, hpre]
    rw [decodeInOrder]
    cases hexit : (handleInotifyEvent (ord visited.length) w r).exit with
    | returned err =>
      cases err with
      | none => simp only [hih]
      | some e => rfl
    | deadlock => rfl
    | nilDeref => rfl

/-- The ordering behind C6, for the reads on which no decode blocks. A read that
is the concatenation of `k >= 1` well-formed records (fewer than `2 ^ 32` bytes;
the buffer holds 65536) is decoded as `decodeInOrder` says: the headers are
handed to `handleInotifyEvent` one after the other in buffer order, each at the
offset where the previous record ends, and the events are sent in that order;
`k + 1` rounds of the loop are enough. -/
theorem decode_pass_in_order (ord : Nat → IterOrder) (fuel : Nat) (w : Watcher) (ev : EpollEvent)
    (recs : List InotifyEvent) (hfd : w.fd = ev.Fd) (hne : recs ≠ [])
    (hwf : ∀ r ∈ recs, r.WF) (hfuel : recs.length < fuel)
    (hlen : (encodeAll recs).length < 2 ^ 32) :
    handleEpollEvent ord fuel w ev (.ok (encodeAll recs)) =
      some (decodeInOrder ord recs w 0 [] []) := by
  have h16 : SizeofInotifyEvent ≤ (encodeAll recs).length := by
    cases recs with
    | nil => exact absurd rfl hne
    | cons r rest => rw [length_encodeAll_cons]; omega
  have h := loop_eq_decodeInOrder ord recs [] fuel w [] [] hwf hfuel (by simpa using h16)
    (by simpa using hlen)
  simp only [List.nil_append, List.length_nil] at h
  simp only [handleEpollEvent, hfd, ne_eq, not_true_eq_false, if_false,
    Nat.not_lt.2 h16]
  exact h

theorem decode_returns (o : IterOrder) (w : Watcher) (ev : InotifyEvent) (hmu : w.mu = false)
    (hw : ReverseOK w) (hop : (GetOp o ev.Mask).2 = true) :
    (handleInotifyEvent o w ev).exit = .returned none ∧
      (handleInotifyEvent o w ev).w.mu = false := by
  cases hp : w.paths ev.Wd with
  | none => rw [decode_unknown o w ev hmu hp]; exact ⟨rfl, hmu⟩
  | some p =>
    obtain ⟨watch, hwatch, -⟩ := hw ev.Wd p hp
    have e : GetOp o ev.Mask = ((GetOp o ev.Mask).1, true) := Prod.ext rfl hop
    rw [decode_mapped o w ev p _ watch hmu hp e hwatch]
    refine ⟨rfl, ?_⟩
    show (if (GetOp o ev.Mask).1 &&& Delete ≠ 0 then _ else w).mu = false
    split
    · exact hmu
    · exact hmu

/-- When the table is one a watcher can have, the mutex is free and every record
carries at least one bit of `Mask2Op`, no decode blocks: `decodeInOrder` hands
all the records to `handleInotifyEvent`, returns nil and leaves the mutex free. -/
theorem decodeInOrder_complete (ord : Nat → IterOrder) (recs : List InotifyEvent) :
    ∀ (w : Watcher) (offset : Nat) (sent : List Event) (visited : List Nat),
      w.mu = false → ReverseOK w → (∀ r ∈ recs, ∀ o : IterOrder, (GetOp o r.Mask).2 = true) →
      (decodeInOrder ord recs w offset sent visited).exit = .returned none ∧
        (decodeInOrder ord recs w offset sent visited).visited.length =
          visited.length + recs.length ∧
        (decodeInOrder ord recs w offset sent visited).w.mu = false := by
  induction recs with
  | nil =>
    intro w offset sent visited hmu _ _
    exact ⟨rfl, rfl, hmu⟩
  | cons r rest ih =>
    intro w offset sent visited hmu hw hmapped
    obtain ⟨hexit, hmu1⟩ := decode_returns (ord visited.length) w r hmu hw
      (hmapped r (List.mem_cons_self _ _) _)
    have hih := ih (handleInotifyEvent (ord visited.length) w r).w
      (offset + (SizeofInotifyEvent + r.Len))
      (sent ++ (handleInotifyEvent (ord visited.length) w r).sent) (visited ++ [offset])
      hmu1 (ReverseOK_decode _ w r hw) (fun x hx => hmapped x (List.mem_cons_of_mem _ hx))
    rw [decodeInOrder]
    simp only [hexit]
    refine ⟨hih.1, ?_, hih.2.2⟩
    rw [hih.2.1]
    simp only [List.length_append, List.length_cons, List.length_nil]
    omega

/-! ## One decode pass on concrete reads -/

/-- C6, the code at the failing input. `"/tmp/x"` is watched for `Create` with
handle 1. One read returns three well-formed records of 16 bytes for handle 1:
`IN_IGNORED`, `IN_CREATE`, `IN_CREATE`. The pass needs no more than two rounds
of the loop: it visits the headers at offsets 0 and 16 only, sends no event and
never returns, being blocked on the mutex that the first record left held. The
header at offset 32 is never visited and the offset never reaches 48. -/
theorem decode_pass_blocks (fuel : Nat) :
    (encodeRecord ⟨1, IN_IGNORED, 0, 0⟩ ++ encodeRecord ⟨1, IN_CREATE, 0, 0⟩ ++
        encodeRecord ⟨1, IN_CREATE, 0, 0⟩).length = 48 ∧
      (handleEpollEvent (fun _ => declaredOrder) (fuel + 2)
        (Add declaredOrder (.ok 1) (NewWatcher 3 4) "/tmp/x" Create).w ⟨1, 3, 0⟩
        (.ok (encodeRecord ⟨1, IN_IGNORED, 0, 0⟩ ++ encodeRecord ⟨1, IN_CREATE, 0, 0⟩ ++
          encodeRecord ⟨1, IN_CREATE, 0, 0⟩))).map
          (fun r => (r.exit, r.visited, r.sent)) =
        some (.deadlock, [0, 16], []) :=
  ⟨by decide, rfl⟩

/-- The example of C6: `"a"` is watched with `AllOp` and handle 1; one read with a
`Create` record and then a `Modify` record for handle 1 visits offsets 0 and 16
and sends `Event{a, Create}` then `Event{a, Modify}`. -/
theorem decode_pass_create_then_modify (fuel : Nat) :
    (handleEpollEvent (fun _ => rotatedOrder) (fuel + 3)
        (Add declaredOrder (.ok 1) (NewWatcher 3 4) "a" AllOp).w ⟨1, 3, 0⟩
        (.ok (encodeRecord ⟨1, IN_CREATE, 0, 0⟩ ++ encodeRecord ⟨1, IN_MODIFY, 0, 0⟩))).map
          (fun r => (r.exit, r.visited, r.sent)) =
        some (.returned none, [0, 16], [⟨"a", Create⟩, ⟨"a", Modify⟩]) :=
  rfl

end Gnotify
